import Mathlib

/-! Self-update core of `app.go`.

A shallow embedding of the update flow of `src/app.go` (`CheckUpdate`,
`fetchManifest`, `ApplyUpdate`, `br.Read`) together with the library routines
it calls (`golang.org/x/mod/semver`, `encoding/hex`), followed by the
properties of the update flow.

Go strings are byte strings: a `GoString` is the list of its bytes, each byte
a natural number.  Byte constants are written as decimal numerals with the
character in a comment.
-/

namespace GoWails

/-! ## Go strings -/

/-- A Go `string` / `[]byte`: the list of its bytes. -/
abbrev GoString := List Nat

/-- The bytes (UTF-8) of a string literal of the source. -/
def lit (s : String) : GoString :=
  s.data.flatMap fun c => (String.utf8EncodeChar c).map UInt8.toNat

/-- Go `x < y` on strings: byte-wise lexicographic order, a proper initial
segment being smaller. -/
def strLt : GoString → GoString → Bool
  | [], [] => false
  | [], _ :: _ => true
  | _ :: _, [] => false
  | a :: x, b :: y => if a < b then true else if b < a then false else strLt x y

/-! ## `golang.org/x/mod/semver`

`CheckUpdate` calls `semver.IsValid` and `semver.Compare`.  The package is a
dependency of the repository and its source is not part of it; the definitions
of this section follow the package's algorithm, which works on the version
strings themselves: `parse` cuts the string into fields, `compareInt` compares
two numbers as strings (by length, then byte-wise), `comparePrerelease` walks
the two pre-release strings identifier by identifier. -/

namespace semver

/-- Modelled from the spec: the record `parsed` of `golang.org/x/mod/semver` (imported by `app.go`, not under `src/`). -/
structure parsed where
  major : GoString := []
  minor : GoString := []
  patch : GoString := []
  short : GoString := []
  prerelease : GoString := []
  build : GoString := []
  deriving DecidableEq, Repr

/-- Modelled from the spec: the digit loop of `parseInt`, `isBadNum` and `isNum` of `golang.org/x/mod/semver` (imported by `app.go`, not under `src/`),
`for i < len(v) && '0' <= v[i] && v[i] <= '9' { i++ }`: the first argument is
`v[i:]`, the result the final `i`. -/
def scanDigits : GoString → Nat → Nat
  | [], i => i
  | c :: cs, i => if 48 ≤ c ∧ c ≤ 57 then scanDigits cs (i + 1) else i

/-- Modelled from the spec: `parseInt` of `golang.org/x/mod/semver` (imported by `app.go`, not under `src/`): a decimal
number without leading zeros at the front of `v`; returns `(t, rest)`, `none`
standing for `ok = false`. -/
def parseInt (v : GoString) : Option (GoString × GoString) :=
  match v with
  | [] => none
  | c :: cs =>
    if c < 48 ∨ 57 < c then none
    else
      let i := scanDigits cs 1
      if c = 48 ∧ i ≠ 1 then none
      else some (v.take i, v.drop i)

/-- Modelled from the spec: `isIdentChar` of `golang.org/x/mod/semver` (imported by `app.go`, not under `src/`):
`[0-9A-Za-z-]`. -/
def isIdentChar (c : Nat) : Bool :=
  (65 ≤ c && c ≤ 90) || (97 ≤ c && c ≤ 122) || (48 ≤ c && c ≤ 57) || c == 45

/-- Modelled from the spec: `isBadNum` of `golang.org/x/mod/semver` (imported by `app.go`, not under `src/`): all
digits, more than one of them, and a leading `0`. -/
def isBadNum (v : GoString) : Bool :=
  let i := scanDigits v 0
  i == v.length && decide (1 < i) && v.head? == some 48

/-- Modelled from the spec: `isNum` of `golang.org/x/mod/semver` (imported by `app.go`, not under `src/`): all bytes
are digits. -/
def isNum (v : GoString) : Bool :=
  scanDigits v 0 == v.length

/-- Modelled from the spec: the loop of `parsePrerelease` of `golang.org/x/mod/semver` (imported by `app.go`, not under `src/`).  The state `(i, start)` of the source is
carried as `rest = v[i:]`, `cur = v[start:i]` and `acc = v[:i]`; the result is
`(v[:i], v[i:])` at loop exit after the final identifier check. -/
def prereleaseLoop : GoString → GoString → GoString → Option (GoString × GoString)
  | [], cur, acc =>
    if cur = [] ∨ isBadNum cur then none else some (acc, [])
  | c :: cs, cur, acc =>
    if c = 43 /- '+' -/ then
      if cur = [] ∨ isBadNum cur then none else some (acc, c :: cs)
    else if !isIdentChar c ∧ c ≠ 46 /- '.' -/ then none
    else if c = 46 then
      if cur = [] ∨ isBadNum cur then none
      else prereleaseLoop cs [] (acc ++ [c])
    else prereleaseLoop cs (cur ++ [c]) (acc ++ [c])

/-- Modelled from the spec: `parsePrerelease` of `golang.org/x/mod/semver` (imported by `app.go`, not under `src/`):
`-` followed by dot separated identifiers. -/
def parsePrerelease (v : GoString) : Option (GoString × GoString) :=
  match v with
  | [] => none
  | c :: cs => if c ≠ 45 /- '-' -/ then none else prereleaseLoop cs [] [c]

/-- Modelled from the spec: the loop of `parseBuild` of `golang.org/x/mod/semver` (imported by `app.go`, not under `src/`),
with the same state encoding as `prereleaseLoop`. -/
def buildLoop : GoString → GoString → GoString → Option (GoString × GoString)
  | [], cur, acc => if cur = [] then none else some (acc, [])
  | c :: cs, cur, acc =>
    if !isIdentChar c ∧ c ≠ 46 then none
    else if c = 46 then
      if cur = [] then none else buildLoop cs [] (acc ++ [c])
    else buildLoop cs (cur ++ [c]) (acc ++ [c])

/-- Modelled from the spec: `parseBuild` of `golang.org/x/mod/semver` (imported by `app.go`, not under `src/`):
`+` followed by dot separated identifiers. -/
def parseBuild (v : GoString) : Option (GoString × GoString) :=
  match v with
  | [] => none
  | c :: cs => if c ≠ 43 /- '+' -/ then none else buildLoop cs [] [c]

/-- Modelled from the spec: the end of `parse` of `golang.org/x/mod/semver` (imported by `app.go`, not under `src/`),
after the patch number: optional pre-release, optional build, then end of
input. -/
def parseTail (p : parsed) (v : GoString) : Option parsed :=
  let afterPre : Option (parsed × GoString) :=
    if v.head? = some 45 then
      match parsePrerelease v with
      | none => none
      | some (t, rest) => some ({ p with prerelease := t }, rest)
    else some (p, v)
  match afterPre with
  | none => none
  | some (p, v) =>
    let afterBuild : Option (parsed × GoString) :=
      if v.head? = some 43 then
        match parseBuild v with
        | none => none
        | some (t, rest) => some ({ p with build := t }, rest)
      else some (p, v)
    match afterBuild with
    | none => none
    | some (p, v) => if v ≠ [] then none else some p

/-- Modelled from the spec: `parse` of `golang.org/x/mod/semver` (imported by `app.go`, not under `src/`), the
specification's semantic-version validation: the parsed form of
`vMAJOR[.MINOR[.PATCH[-PRERELEASE][+BUILD]]]`, `none` standing for
`ok = false`. -/
def parse (v : GoString) : Option parsed :=
  match v with
  | [] => none
  | c :: v1 =>
    if c ≠ 118 /- 'v' -/ then none
    else
      match parseInt v1 with
      | none => none
      | some (major, v) =>
        match v with
        | [] => some { major := major, minor := [48], patch := [48], short := lit ".0.0" }
        | d :: v2 =>
          if d ≠ 46 then none
          else
            match parseInt v2 with
            | none => none
            | some (minor, v) =>
              match v with
              | [] => some { major := major, minor := minor, patch := [48], short := lit ".0" }
              | e :: v3 =>
                if e ≠ 46 then none
                else
                  match parseInt v3 with
                  | none => none
                  | some (patch, v) =>
                    parseTail { major := major, minor := minor, patch := patch } v

/-- Modelled from the spec: `semver.IsValid` of `golang.org/x/mod/semver` (imported by `app.go`, not under `src/`):
whether `v` is a valid semantic version string. -/
def IsValid (v : GoString) : Bool := (parse v).isSome

/-- Modelled from the spec: `compareInt` of `golang.org/x/mod/semver` (imported by `app.go`, not under `src/`): compare
two decimal strings without leading zeros. -/
def compareInt (x y : GoString) : Int :=
  if x = y then 0
  else if x.length < y.length then -1
  else if x.length > y.length then 1
  else if strLt x y then -1
  else 1

/-- Modelled from the spec: the loop `for i < len(x) && x[i] != '.' { i++ }` of
`nextIdent` of `golang.org/x/mod/semver` (imported by `app.go`, not under `src/`). -/
def scanIdent : GoString → Nat → Nat
  | [], i => i
  | c :: cs, i => if c ≠ 46 then scanIdent cs (i + 1) else i

/-- Modelled from the spec: `nextIdent` of `golang.org/x/mod/semver` (imported by `app.go`, not under `src/`): the
identifier at the front of `x` and what follows it. -/
def nextIdent (x : GoString) : GoString × GoString :=
  let i := scanIdent x 0
  (x.take i, x.drop i)

/-- Modelled from the spec: the loop `for x != "" && y != ""` of `comparePrerelease`
of `golang.org/x/mod/semver` (imported by `app.go`, not under `src/`) with the final `if x == ""`.  Each iteration shortens `x`, so `len(x)` iterations suffice;
`fuel` bounds the number of iterations. -/
def comparePrereleaseLoop : Nat → GoString → GoString → Int
  | 0, x, _ => if x = [] then -1 else 1
  | fuel + 1, x, y =>
    if x ≠ [] ∧ y ≠ [] then
      let x := x.drop 1
      let y := y.drop 1
      let (dx, x) := nextIdent x
      let (dy, y) := nextIdent y
      if dx ≠ dy then
        let ix := isNum dx
        let iy := isNum dy
        if ix ≠ iy then
          if ix then -1 else 1
        else if ix ∧ dx.length < dy.length then -1
        else if ix ∧ dx.length > dy.length then 1
        else if strLt dx dy then -1
        else 1
      else comparePrereleaseLoop fuel x y
    else if x = [] then -1 else 1

/-- Modelled from the spec: `comparePrerelease` of `golang.org/x/mod/semver` (imported by `app.go`, not under `src/`):
precedence of two pre-release strings (each empty or starting with `-`). -/
def comparePrerelease (x y : GoString) : Int :=
  if x = y then 0
  else if x = [] then 1
  else if y = [] then -1
  else comparePrereleaseLoop x.length x y

/-- Modelled from the spec: `semver.Compare` of `golang.org/x/mod/semver` (imported by `app.go`, not under `src/`):
`-1`, `0` or `+1` by semantic version precedence; an invalid version is smaller
than a valid one and equal to any other invalid one. -/
def Compare (v w : GoString) : Int :=
  match parse v, parse w with
  | none, none => 0
  | none, some _ => -1
  | some _, none => 1
  | some pv, some pw =>
    let c := compareInt pv.major pw.major
    if c ≠ 0 then c
    else
      let c := compareInt pv.minor pw.minor
      if c ≠ 0 then c
      else
        let c := compareInt pv.patch pw.patch
        if c ≠ 0 then c
        else comparePrerelease pv.prerelease pw.prerelease

end semver

/-! ## The version comparison of `CheckUpdate` -/

/-- Lines 141-146 of `CheckUpdate`: a non-empty version not starting with `v`
gets a `v` in front. -/
def withV (s : GoString) : GoString :=
  match s with
  | [] => []
  | c :: cs => if c ≠ 118 then 118 :: c :: cs else c :: cs

/-- Lines 139-147 of `CheckUpdate`: the value stored in `info.HasUpdate` for
the build version `cur` and the manifest version `lat`. -/
def hasNewer (cur lat : GoString) : Bool :=
  let cur := withV cur
  let lat := withV lat
  semver.IsValid cur && semver.IsValid lat && decide (semver.Compare lat cur > 0)

/-! ## Semantic-version precedence (semver.org, item 11) -/

namespace SemVer

/-- A pre-release identifier: numeric, or alphanumeric (letters, digits and
hyphens, not all digits). -/
inductive Ident where
  | num (n : Nat)
  | alnum (s : GoString)
  deriving DecidableEq, Repr

/-- A semantic version: `major.minor.patch` and the list of pre-release
identifiers (empty for a normal version).  Build metadata has no part in
precedence. -/
structure Version where
  major : Nat
  minor : Nat
  patch : Nat
  pre : List Ident
  deriving DecidableEq, Repr

/-- Precedence of two identifiers: numeric ones numerically, alphanumeric ones
lexically in ASCII order, a numeric one below an alphanumeric one. -/
def identLt : Ident → Ident → Bool
  | .num a, .num b => decide (a < b)
  | .num _, .alnum _ => true
  | .alnum _, .num _ => false
  | .alnum s, .alnum t => decide (s < t)

/-- Precedence of two identifier lists: the first difference from the left
decides; if one list ends first, the longer one is higher. -/
def preLt : List Ident → List Ident → Bool
  | [], [] => false
  | [], _ :: _ => true
  | _ :: _, [] => false
  | a :: p, b :: q => identLt a b || (a == b && preLt p q)

/-- Precedence of the pre-release parts: a pre-release version is lower than
the normal version; two pre-release versions compare by `preLt`. -/
def releaseLt (p q : List Ident) : Bool :=
  match p, q with
  | [], _ => false
  | _ :: _, [] => true
  | _ :: _, _ :: _ => preLt p q

/-- Strict precedence `a < b`: major, minor and patch compared numerically in
that order, then the pre-release parts. -/
def lt (a b : Version) : Bool :=
  decide (a.major < b.major) ||
  (a.major == b.major &&
    (decide (a.minor < b.minor) ||
    (a.minor == b.minor &&
      (decide (a.patch < b.patch) ||
      (a.patch == b.patch && releaseLt a.pre b.pre)))))

/-- The value of a string of decimal digits. -/
def decimal (s : GoString) : Nat :=
  s.foldl (fun n c => 10 * n + (c - 48)) 0

/-- The identifier a non-empty field denotes: numeric when all its bytes are
digits. -/
def identOf (d : GoString) : Ident :=
  if d.all (fun c => decide (48 ≤ c ∧ c ≤ 57)) then .num (decimal d) else .alnum d

/-- The identifiers of a pre-release string: nothing for the empty string,
otherwise the fields between dots after the leading hyphen. -/
def preOf (t : GoString) : List Ident :=
  match t with
  | [] => []
  | _ :: body => (body.splitOn 46).map identOf

/-- The semantic version a parsed version string denotes. -/
def ofParsed (p : semver.parsed) : Version :=
  { major := decimal p.major
    minor := decimal p.minor
    patch := decimal p.patch
    pre := preOf p.prerelease }

/-- The semantic version a version string denotes, when it is valid. -/
def ofString (v : GoString) : Option Version :=
  (semver.parse v).map ofParsed

end SemVer

/-! ## Well-formedness predicates used in the proofs -/

/-- A decimal string as `parseInt` accepts it: non-empty, digits only, no
leading zero unless it is `0` itself. -/
def Canon (s : GoString) : Prop :=
  s ≠ [] ∧ (∀ c ∈ s, 48 ≤ c ∧ c ≤ 57) ∧ (s.head? = some 48 → s.length = 1)

/-- Three-way comparison of two natural numbers, as `-1`, `0`, `+1`. -/
def cmpNat (a b : Nat) : Int :=
  if a < b then -1 else if a = b then 0 else 1

/-- A pre-release identifier as `parsePrerelease` accepts it: non-empty,
without a dot, and not a number with a leading zero. -/
def GoodIdent (d : GoString) : Prop :=
  d ≠ [] ∧ (∀ c ∈ d, c ≠ 46) ∧ semver.isBadNum d = false

/-- A pre-release string as `parse` produces it: empty, or a hyphen followed
by dot separated good identifiers. -/
def GoodPre (t : GoString) : Prop :=
  t = [] ∨ ∃ body, t = 45 :: body ∧ ∀ d ∈ body.splitOn 46, GoodIdent d

/-- The branch of `comparePrerelease` taken for two different identifiers. -/
def identCmp (dx dy : GoString) : Int :=
  let ix := semver.isNum dx
  let iy := semver.isNum dy
  if ix ≠ iy then
    if ix then -1 else 1
  else if ix ∧ dx.length < dy.length then -1
  else if ix ∧ dx.length > dy.length then 1
  else if strLt dx dy then -1
  else 1

/-! ## Go errors -/

/-- A Go `error` value: `errorString` is what `errors.New` builds,
`rollbackErr` the error `selfupdate.Apply` returns when undoing a failed
replace failed as well; it carries the original error and the rollback
error. -/
inductive GoError where
  | errorString (s : GoString)
  | rollbackErr (err : GoError) (rerr : GoError)
  deriving DecidableEq, Repr

/-- The method `Error()`; the wrapper answers with its embedded error. -/
def GoError.Error : GoError → GoString
  | .errorString s => s
  | .rollbackErr e _ => e.Error

/-- Modelled from the spec: `selfupdate.RollbackError` of `github.com/minio/selfupdate`
(imported by `app.go`, not under `src/`): the error met while rolling back,
`none` (nil) when no rollback was needed or the rollback went through. -/
def RollbackError : GoError → Option GoError
  | .rollbackErr _ r => some r
  | .errorString _ => none

/-- The error `io.EOF` that `Read` returns. -/
def EOF : GoError := .errorString (lit "EOF")

/-! ## `encoding/hex` -/

namespace hex

/-- Modelled from the spec: `reverseHexTable` of `encoding/hex` (standard library, not under `src/`):
the value of a hexadecimal digit, `0xff` for any other byte. -/
def reverseHexTable (c : Nat) : Nat :=
  if 48 ≤ c ∧ c ≤ 57 then c - 48
  else if 97 ≤ c ∧ c ≤ 102 then c - 97 + 10
  else if 65 ≤ c ∧ c ≤ 70 then c - 65 + 10
  else 255

/-- The digit `0-9A-F` of a value below 16. -/
def upperDigit (n : Nat) : Nat := if n < 10 then 48 + n else 55 + n

/-- Modelled from the spec: `fmt.Sprintf("%#U", rune(b))` of the standard library
for a byte `b`, as `InvalidByteError.Error` calls it: `U+00XY`, followed by
the quoted character when it is printable. -/
def fmtSharpU (b : Nat) : GoString :=
  lit "U+00" ++ [upperDigit (b / 16), upperDigit (b % 16)] ++
    (if (32 ≤ b ∧ b < 127) ∨ (161 ≤ b ∧ b ≤ 255 ∧ b ≠ 173) then
      [32, 39] ++ (if b < 128 then [b] else [192 + b / 64, 128 + b % 64]) ++ [39]
    else [])

/-- Modelled from the spec: `hex.ErrLength` of `encoding/hex` (standard library, not under `src/`). -/
def ErrLength : GoError := .errorString (lit "encoding/hex: odd length hex string")

/-- Modelled from the spec: `hex.InvalidByteError(b)` of `encoding/hex` (standard library, not under `src/`),
with the text of its `Error()`. -/
def InvalidByteError (b : Nat) : GoError :=
  .errorString (lit "encoding/hex: invalid byte: " ++ fmtSharpU b)

/-- Modelled from the spec: the loop of `hex.Decode` of `encoding/hex` (standard library, not under `src/`)
and the odd-length check after it: the first argument is the part of `src`
not yet read, `dst` the bytes written so far. -/
def decodeLoop : GoString → GoString → Except GoError GoString
  | [], dst => .ok dst
  | [p], _ =>
    if reverseHexTable p > 15 then .error (InvalidByteError p) else .error ErrLength
  | p :: q :: rest, dst =>
    let a := reverseHexTable p
    let b := reverseHexTable q
    if a > 15 then .error (InvalidByteError p)
    else if b > 15 then .error (InvalidByteError q)
    else decodeLoop rest (dst ++ [a * 16 + b])

/-- Modelled from the spec: `hex.DecodeString` of `encoding/hex` (standard library, not under `src/`),
the specification's decoding of `checksumHex` from hex. -/
def DecodeString (s : GoString) : Except GoError GoString :=
  decodeLoop s []

end hex

/-! ## The byte reader `br` -/

/-- The struct `br`. -/
structure br where
  b : GoString
  i : Int
  deriving DecidableEq, Repr

/-- `bytesReader(b)`. -/
def bytesReader (b : GoString) : br := { b := b, i := 0 }

/-- The built-in `copy(dst, src)`: the number of bytes copied, which is the
smaller of the two lengths, and `dst` afterwards. -/
def copy (dst src : GoString) : Nat × GoString :=
  let n := min dst.length src.length
  (n, src.take n ++ dst.drop n)

/-- The slice expression `b[i:]`; `none` is the run-time panic for an index
out of range. -/
def sliceFrom (b : GoString) (i : Int) : Option GoString :=
  if 0 ≤ i ∧ i ≤ b.length then some (b.drop i.toNat) else none

/-- The method `(*br).Read(p)`: the pair `(n, err)`, the buffer `p` afterwards
and the reader afterwards; `none` is a run-time panic. -/
def br.Read (r : br) (p : GoString) : Option ((Nat × Option GoError) × GoString × br) :=
  if r.i ≥ r.b.length then some ((0, some EOF), p, r)
  else
    match sliceFrom r.b r.i with
    | none => none
    | some src =>
      let (n, p) := copy p src
      some ((n, none), p, { r with i := r.i + n })

/-- A run of `Read` calls, one per buffer of `bufs`, each on the reader the
call before left behind: the list of `(n, err, buffer afterwards)` and the
final reader; `none` if a call panics. -/
def readMany : br → List GoString → Option (List (Nat × Option GoError × GoString) × br)
  | r, [] => some ([], r)
  | r, p :: bufs =>
    match r.Read p with
    | none => none
    | some ((n, err), p, r) =>
      match readMany r bufs with
      | none => none
      | some (out, r) => some ((n, err, p) :: out, r)

/-- The bytes a run of `Read` calls delivered: the first `n` bytes of each
buffer, up to the first call that reports an error. -/
def delivered : List (Nat × Option GoError × GoString) → GoString
  | [] => []
  | (n, none, p) :: out => p.take n ++ delivered out
  | (_, some _, _) :: _ => []

/-- Modelled from the spec: the loop of `io.ReadAll` (standard library, not under
`src/`) on a `br`: call `Read` with a buffer of `chunk` spare bytes and append
what it delivers until it reports an error; `(data, err)` with `io.EOF` turned
into `nil`.  `fuel` bounds the number of `Read` calls. -/
def readAllLoop (chunk : Nat) : Nat → br → GoString → Option (GoString × Option GoError)
  | 0, _, _ => none
  | fuel + 1, r, data =>
    match r.Read (List.replicate chunk 0) with
    | none => none
    | some ((n, err), p, r) =>
      let data := data ++ p.take n
      match err with
      | some e => some (data, if e = EOF then none else some e)
      | none => readAllLoop chunk fuel r data

/-- Modelled from the spec: `io.ReadAll(r)` for a `br`, with the initial capacity of
512 bytes as the buffer size of every call; one call per byte and one for
`io.EOF` always suffice. -/
def ReadAll (r : br) : Option (GoString × Option GoError) :=
  readAllLoop 512 (r.b.length + 1) r []

/-! ## HTTP, JSON and the executable on disk -/

/-- The struct `manifest`. -/
structure manifest where
  Version : GoString := []
  URL : GoString := []
  SHA256 : GoString := []
  deriving DecidableEq, Repr

/-- The struct `updateInfo`. -/
structure updateInfo where
  Current : GoString := []
  Latest : GoString := []
  HasUpdate : Bool := false
  URL : GoString := []
  SHA256 : GoString := []
  Error : GoString := []
  deriving DecidableEq, Repr

/-- The struct `applyResult`. -/
structure applyResult where
  OK : Bool := false
  Message : GoString := []
  Error : GoString := []
  deriving DecidableEq, Repr

/-- A response body: what reading it to the end gives, the bytes and the read
error if there is one (`io.ReadAll(resp.Body)`). -/
structure Body where
  data : GoString
  err : Option GoError := none
  deriving DecidableEq, Repr

/-- The part of `http.Response` the program looks at. -/
structure Response where
  StatusCode : Int
  Body : Body
  deriving DecidableEq, Repr

/-- `selfupdate.Options` as `ApplyUpdate` fills it. -/
structure Options where
  Hash : Nat
  Checksum : GoString
  deriving DecidableEq, Repr

/-- `crypto.SHA256`. -/
def SHA256 : Nat := 5

/-- The files `selfupdate.Apply` works on: the executable of the running
process (`none`: no file at its path) and the temporary file next to it. -/
structure Disk where
  exe : Option GoString
  staged : Option GoString := none
  deriving DecidableEq, Repr

/-- An event sent with `wruntime.EventsEmit(ctx, name, data)`; `data = none` is
the `nil` argument. -/
structure Event where
  name : GoString
  data : Option GoString
  deriving DecidableEq, Repr

/-- What `ApplyUpdate` acts on: the disk and the events sent to the frontend
so far. -/
structure World where
  disk : Disk
  events : List Event := []
  deriving DecidableEq, Repr

/-- The collaborators of the update flow, outside `app.go`: the package
variable `Version` (set at link time), `http.Get`, the JSON decoding of a
response body into a `manifest` (`json.NewDecoder(body).Decode(&m)`), and
`selfupdate.Apply`, which returns its error and the disk afterwards. -/
structure Env where
  Version : GoString
  httpGet : GoString → Except GoError Response
  jsonDecode : Body → Except GoError manifest
  selfupdateApply : br → Options → Disk → Option GoError × Disk

/-! ## `fetchManifest`, `CheckUpdate`, `ApplyUpdate` -/

/-- The function `fetchManifest`. -/
def fetchManifest (env : Env) (url : GoString) : Except GoError manifest :=
  match env.httpGet url with
  | .error err => .error err
  | .ok resp =>
    if resp.StatusCode < 200 ∨ resp.StatusCode ≥ 300 then
      .error (.errorString (lit "manifest http status not ok"))
    else
      match env.jsonDecode resp.Body with
      | .error err => .error err
      | .ok m =>
        if m.Version = [] ∨ m.URL = [] ∨ m.SHA256 = [] then
          .error (.errorString (lit "manifest missing fields"))
        else .ok m

/-- The method `CheckUpdate`. -/
def CheckUpdate (env : Env) (manifestURL : GoString) : updateInfo :=
  let info : updateInfo := { Current := env.Version }
  match fetchManifest env manifestURL with
  | .error err => { info with Error := err.Error }
  | .ok m =>
    let info := { info with Latest := m.Version, URL := m.URL, SHA256 := m.SHA256 }
    { info with HasUpdate := hasNewer env.Version m.Version }

/-- The method `ApplyUpdate`: its result and the world afterwards. -/
def ApplyUpdate (env : Env) (url sha256Hex : GoString) (w : World) : applyResult × World :=
  match env.httpGet url with
  | .error err => ({ OK := false, Error := err.Error }, w)
  | .ok resp =>
    match resp.Body.err with
    | some err => ({ OK := false, Error := err.Error }, w)
    | none =>
      let body := resp.Body.data
      match hex.DecodeString sha256Hex with
      | .error err => ({ OK := false, Error := lit "bad sha256: " ++ err.Error }, w)
      | .ok sum =>
        match env.selfupdateApply (bytesReader body) { Hash := SHA256, Checksum := sum } w.disk with
        | (some err, disk) =>
          match RollbackError err with
          | some _ =>
            ({ OK := false, Error := lit "update failed + rollback failed" },
              { w with disk := disk })
          | none => ({ OK := false, Error := err.Error }, { w with disk := disk })
        | (none, disk) =>
          ({ OK := true, Message := lit "อัปเดตสำเร็จ ✅ กรุณารีสตาร์ทแอป" },
            { disk := disk, events := w.events ++ [{ name := lit "update:applied", data := none }] })

/-! ## The replace step -/

/-- What can go wrong on the file system during a replace: creating the
temporary file, the swap, and the rollback after a failed swap (with the state
the executable's path is left in when the rollback fails). -/
structure ReplaceFaults where
  stage : Option GoError := none
  swap : Option GoError := none
  rollback : Option (GoError × Option GoString) := none

/-- Modelled from the spec: `selfupdate.Apply` of the imported package
`github.com/minio/selfupdate`, whose source is not under `src/`.  Section 4.3,
steps 4 to 6: the replace step is handed the bytes and the expected digest;
it stages the new binary in a temporary file next to the executable, verifies
the digest of the bytes against the checksum before committing, swaps the
temporary file into the executable's place by renaming, and after a failed
swap restores the original executable; when that rollback fails too the error
carries the rollback error and the executable may be missing or inconsistent.
The digest function and the file-system faults are parameters. -/
def selfupdateApplySpec (digest : GoString → GoString) (faults : ReplaceFaults)
    (update : br) (opts : Options) (d : Disk) : Option GoError × Disk :=
  match ReadAll update with
  | none => (some (.errorString (lit "read failed")), d)
  | some (_, some err) => (some err, d)
  | some (newBytes, none) =>
    match faults.stage with
    | some err => (some err, d)
    | none =>
      let d := { d with staged := some newBytes }
      if digest newBytes ≠ opts.Checksum then
        (some (.errorString (lit "integrity mismatch")), d)
      else
        match faults.swap with
        | none => (none, { exe := some newBytes, staged := none })
        | some err =>
          match faults.rollback with
          | none => (some err, d)
          | some (rerr, left) => (some (.rollbackErr err rerr), { d with exe := left })

/-- A hexadecimal digit `0-9`, `a-f` or `A-F`. -/
def isHexDigit (c : Nat) : Prop :=
  (48 ≤ c ∧ c ≤ 57) ∨ (97 ≤ c ∧ c ≤ 102) ∨ (65 ≤ c ∧ c ≤ 70)

/-- The normalization of a version as the specification words it: the marker
`v` is put in front if it is absent. -/
def normalizeV (s : GoString) : GoString :=
  if s.head? = some 118 then s else 118 :: s

/-! ## Sample environments -/

/-- A response body with a small payload. -/
def sampleBody : Body := { data := [1, 2, 3, 4, 5] }

/-- A complete manifest announcing the version `latest`. -/
def sampleManifest (latest : String) : manifest :=
  { Version := lit latest, URL := lit "https://example.org/app", SHA256 := lit "00ff" }

/-- A build of version `version` whose manifest request is answered with the
status `status` and decodes to `m`. -/
def checkEnv (version : String) (status : Int) (m : manifest) : Env :=
  { Version := lit version
    httpGet := fun _ => .ok { StatusCode := status, Body := sampleBody }
    jsonDecode := fun _ => .ok m
    selfupdateApply := fun _ _ d => (none, d) }

/-- An environment whose download succeeds and whose replace step is
`apply`. -/
def applyEnv (apply : br → Options → Disk → Option GoError × Disk) : Env :=
  { Version := lit "1.2.3"
    httpGet := fun _ => .ok { StatusCode := 200, Body := sampleBody }
    jsonDecode := fun _ => .error EOF
    selfupdateApply := apply }

/-- A world with an executable on disk and no events sent. -/
def sampleWorld : World := { disk := { exe := some [9, 9, 9] } }

/-- A replace step that fails at the swap and at the rollback. -/
def rollbackFailedApply : br → Options → Disk → Option GoError × Disk :=
  fun _ _ _ =>
    (some (.rollbackErr (.errorString (lit "rename failed")) (.errorString (lit "restore failed"))),
      { exe := none })

/-- A replace step that fails at the swap and rolls back. -/
def rolledBackApply : br → Options → Disk → Option GoError × Disk :=
  fun _ _ d => (some (.errorString (lit "rename failed")), d)

/-- A replace step that succeeds and installs the bytes of the reader. -/
def succeedingApply : br → Options → Disk → Option GoError × Disk :=
  fun update _ _ => (none, { exe := some update.b })

/-- A digest function for the samples: the first byte of the payload. -/
def sampleDigest (payload : GoString) : GoString := payload.take 1

/-! ## Writing a semantic version as a string -/

namespace SemVer

/-- The decimal digits of a number, without leading zeros. -/
def renderNat (n : Nat) : GoString :=
  if n = 0 then [48] else ((Nat.digits 10 n).map (· + 48)).reverse

/-- An identifier as text. -/
def renderIdent : Ident → GoString
  | .num n => renderNat n
  | .alnum s => s

/-- The version string `vMAJOR.MINOR.PATCH[-PRERELEASE]` of a version. -/
def render (a : Version) : GoString :=
  [118] ++ renderNat a.major ++ [46] ++ renderNat a.minor ++ [46] ++ renderNat a.patch ++
    (match a.pre with
     | [] => []
     | i :: is => 45 :: [46].intercalate ((i :: is).map renderIdent))

/-- An alphanumeric identifier of semver.org: non-empty, made of
`[0-9A-Za-z-]`, and not all digits. -/
def Ident.WellFormed : Ident → Prop
  | .num _ => True
  | .alnum s => s ≠ [] ∧ (∀ c ∈ s, semver.isIdentChar c = true) ∧ ¬ (∀ c ∈ s, 48 ≤ c ∧ c ≤ 57)

/-- A version all of whose identifiers are well formed. -/
def Version.WellFormed (a : Version) : Prop :=
  ∀ i ∈ a.pre, i.WellFormed

end SemVer

/-! ## Decimal strings: `parseInt` and `compareInt` -/

theorem scanDigits_eq (s : GoString) (i : Nat) :
    semver.scanDigits s i
      = i + (s.takeWhile fun c => decide (48 ≤ c ∧ c ≤ 57)).length := by
  induction s generalizing i with
  | nil => simp [semver.scanDigits]
  | cons c cs ih =>
    by_cases h : 48 ≤ c ∧ c ≤ 57
    · simp [semver.scanDigits, h, ih, List.takeWhile_cons]; omega
    · simp [semver.scanDigits, h, List.takeWhile_cons]

theorem take_length_takeWhile (p : Nat → Bool) (s : GoString) :
    s.take (s.takeWhile p).length = s.takeWhile p := by
  induction s with
  | nil => simp
  | cons c cs ih =>
    by_cases h : p c
    · simp [List.takeWhile_cons, h, ih]
    · simp [List.takeWhile_cons, h]

theorem drop_length_takeWhile (p : Nat → Bool) (s : GoString) :
    s.drop (s.takeWhile p).length = s.dropWhile p := by
  induction s with
  | nil => simp
  | cons c cs ih =>
    by_cases h : p c
    · simp [List.takeWhile_cons, List.dropWhile_cons, h, ih]
    · simp [List.takeWhile_cons, List.dropWhile_cons, h]

theorem scanDigits_eq_length_iff (s : GoString) :
    semver.scanDigits s 0 = s.length ↔ ∀ c ∈ s, 48 ≤ c ∧ c ≤ 57 := by
  induction s with
  | nil => simp [semver.scanDigits]
  | cons c cs ih =>
    by_cases h : 48 ≤ c ∧ c ≤ 57
    · have h1 := scanDigits_eq cs 1
      have h0 := scanDigits_eq cs 0
      simp only [semver.scanDigits, h, and_self, if_true, List.length_cons, List.mem_cons,
        forall_eq_or_imp, true_and, Nat.zero_add]
      rw [← ih]
      omega
    · have : ¬ (∀ a ∈ c :: cs, 48 ≤ a ∧ a ≤ 57) := fun hh => h (hh c (by simp))
      simp only [semver.scanDigits, h, if_false, List.length_cons, this, iff_false]
      omega

theorem parseInt_some {v t r : GoString} (h : semver.parseInt v = some (t, r)) :
    v = t ++ r ∧ Canon t := by
  cases v with
  | nil => simp [semver.parseInt] at h
  | cons c cs =>
    simp only [semver.parseInt] at h
    split_ifs at h with h1 h2
    simp only [Option.some.injEq, Prod.mk.injEq] at h
    obtain ⟨ht, hr⟩ := h
    have hs := scanDigits_eq cs 1
    have hc : 48 ≤ c ∧ c ≤ 57 := by omega
    rw [hs, Nat.add_comm] at ht hr
    simp only [List.take_succ_cons, List.drop_succ_cons, take_length_takeWhile,
      drop_length_takeWhile] at ht hr
    refine ⟨by rw [← ht, ← hr]; simp, ?_, ?_, ?_⟩
    · rw [← ht]; simp
    · intro d hd
      rw [← ht] at hd
      rcases List.mem_cons.1 hd with rfl | hd
      · exact hc
      · simpa using (List.mem_takeWhile_imp hd)
    · intro hh
      rw [← ht] at hh ⊢
      simp only [List.head?_cons, Option.some.injEq] at hh
      have : semver.scanDigits cs 1 = 1 := by
        by_contra hne; exact h2 ⟨hh, hne⟩
      rw [hs] at this
      simp only [List.length_cons]
      omega

theorem decimal_foldl (s : GoString) (n : Nat) :
    s.foldl (fun n c => 10 * n + (c - 48)) n
      = n * 10 ^ s.length + s.foldl (fun n c => 10 * n + (c - 48)) 0 := by
  induction s generalizing n with
  | nil => simp
  | cons c cs ih =>
    simp only [List.foldl_cons, List.length_cons]
    rw [ih (10 * n + (c - 48)), ih (10 * 0 + (c - 48))]
    ring

theorem decimal_cons (c : Nat) (s : GoString) :
    SemVer.decimal (c :: s) = (c - 48) * 10 ^ s.length + SemVer.decimal s := by
  unfold SemVer.decimal
  rw [List.foldl_cons, decimal_foldl]
  simp

theorem decimal_lt_pow (s : GoString) (h : ∀ c ∈ s, 48 ≤ c ∧ c ≤ 57) :
    SemVer.decimal s < 10 ^ s.length := by
  induction s with
  | nil => simp [SemVer.decimal]
  | cons c cs ih =>
    have hc := h c (by simp)
    have ih := ih (fun d hd => h d (by simp [hd]))
    rw [decimal_cons, List.length_cons, pow_succ]
    have : (c - 48) * 10 ^ cs.length ≤ 9 * 10 ^ cs.length :=
      Nat.mul_le_mul_right _ (by omega)
    omega

theorem strLt_iff (x y : GoString) : strLt x y = true ↔ x < y := by
  induction x generalizing y with
  | nil =>
    cases y with
    | nil => simp only [strLt]; exact ⟨fun h => (by cases h), fun h => (by cases h)⟩
    | cons b y => simp only [strLt]; exact ⟨fun _ => List.Lex.nil, fun _ => trivial⟩
  | cons a x ih =>
    cases y with
    | nil => simp only [strLt]; exact ⟨fun h => (by cases h), fun h => (by cases h)⟩
    | cons b y =>
      simp only [strLt]
      by_cases h1 : a < b
      · simp only [h1, if_true, true_iff]; exact List.Lex.rel h1
      · by_cases h2 : b < a
        · simp only [h1, h2, if_true, if_false, Bool.false_eq_true, false_iff]
          intro h
          cases h with
          | cons h => exact absurd h2 (Nat.lt_irrefl _)
          | rel h => exact h1 h
        · simp only [h1, h2, if_false]
          have hab : a = b := by omega
          subst hab
          rw [ih]
          constructor
          · intro h; exact List.Lex.cons h
          · intro h
            cases h with
            | cons h => exact h
            | rel h => exact absurd h h1

theorem mul_add_lt_mul_add {u v P dx dy : Nat} (hx : dx < P) (huv : u < v) :
    u * P + dx < v * P + dy := by
  have h1 : (u + 1) * P ≤ v * P := Nat.mul_le_mul_right _ huv
  have h2 : (u + 1) * P = u * P + P := by ring
  omega

theorem decimal_same_length (x y : GoString) (hl : x.length = y.length)
    (hx : ∀ c ∈ x, 48 ≤ c ∧ c ≤ 57) (hy : ∀ c ∈ y, 48 ≤ c ∧ c ≤ 57) :
    (strLt x y = true ↔ SemVer.decimal x < SemVer.decimal y) ∧
    (x = y ↔ SemVer.decimal x = SemVer.decimal y) := by
  induction x generalizing y with
  | nil =>
    cases y with
    | nil => simp [strLt]
    | cons b y => simp at hl
  | cons a x ih =>
    cases y with
    | nil => simp at hl
    | cons b y =>
      have hl2 : x.length = y.length := by simpa using hl
      have ha := hx a (by simp)
      have hb := hy b (by simp)
      have hx2 : ∀ c ∈ x, 48 ≤ c ∧ c ≤ 57 := fun c hc => hx c (by simp [hc])
      have hy2 : ∀ c ∈ y, 48 ≤ c ∧ c ≤ 57 := fun c hc => hy c (by simp [hc])
      have hdx := decimal_lt_pow x hx2
      have hdy := decimal_lt_pow y hy2
      obtain ⟨ih1, ih2⟩ := ih y hl2 hx2 hy2
      rw [decimal_cons, decimal_cons, hl2] at *
      simp only [strLt, List.cons.injEq]
      by_cases h1 : a < b
      · have := @mul_add_lt_mul_add (a - 48) (b - 48) (10 ^ y.length)
          (SemVer.decimal x) (SemVer.decimal y) hdx (by omega)
        simp only [h1, if_true, true_iff]
        exact ⟨this, by constructor <;> intro h <;> omega⟩
      · by_cases h2 : b < a
        · have := @mul_add_lt_mul_add (b - 48) (a - 48) (10 ^ y.length)
            (SemVer.decimal y) (SemVer.decimal x) hdy (by omega)
          simp only [h1, h2, if_true, if_false, Bool.false_eq_true, false_iff]
          exact ⟨by omega, by constructor <;> intro h <;> omega⟩
        · have hab : a = b := by omega
          subst hab
          simp only [h1, if_false, true_and]
          rw [ih1, ih2]
          constructor <;> constructor <;> intro h <;> omega

theorem decimal_lt_of_length_lt {x y : GoString} (hx : Canon x) (hy : Canon y)
    (hl : x.length < y.length) : SemVer.decimal x < SemVer.decimal y := by
  have h1 := decimal_lt_pow x hx.2.1
  cases y with
  | nil => simp at hl
  | cons b y =>
    have hb := hy.2.1 b (by simp)
    have hne : b ≠ 48 := by
      intro hb48
      have := hy.2.2 (by simp [hb48])
      have hxl : 0 < x.length := List.length_pos.2 hx.1
      simp only [List.length_cons] at this hl
      omega
    rw [decimal_cons]
    have h2 : 10 ^ x.length ≤ 10 ^ y.length :=
      Nat.pow_le_pow_right (by decide) (by simpa using Nat.lt_succ_iff.1 hl)
    have h3 : 1 * 10 ^ y.length ≤ (b - 48) * 10 ^ y.length :=
      Nat.mul_le_mul_right _ (by omega)
    omega

theorem compareInt_eq {x y : GoString} (hx : Canon x) (hy : Canon y) :
    semver.compareInt x y = cmpNat (SemVer.decimal x) (SemVer.decimal y) := by
  unfold semver.compareInt cmpNat
  by_cases hxy : x = y
  · subst hxy; simp
  · simp only [hxy, if_false]
    by_cases h1 : x.length < y.length
    · have := decimal_lt_of_length_lt hx hy h1
      simp [h1, this]
    · by_cases h2 : x.length > y.length
      · have := decimal_lt_of_length_lt hy hx h2
        have h3 : ¬ SemVer.decimal x < SemVer.decimal y := by omega
        have h4 : ¬ SemVer.decimal x = SemVer.decimal y := by omega
        simp [h1, h2, h3, h4]
      · have hl : x.length = y.length := by omega
        obtain ⟨e1, e2⟩ := decimal_same_length x y hl hx.2.1 hy.2.1
        have h4 : ¬ SemVer.decimal x = SemVer.decimal y := fun h => hxy (e2.2 h)
        simp only [h1, h2, if_false, h4]
        by_cases h5 : strLt x y = true
        · simp [h5, e1.1 h5]
        · have : ¬ SemVer.decimal x < SemVer.decimal y := fun h => h5 (e1.2 h)
          simp [h5, this]

/-! ## Pre-release strings: `parsePrerelease` and `comparePrerelease` -/

theorem scanIdent_eq (s : GoString) (i : Nat) :
    semver.scanIdent s i = i + (s.takeWhile fun c => decide (c ≠ 46)).length := by
  induction s generalizing i with
  | nil => simp [semver.scanIdent]
  | cons c cs ih =>
    by_cases h : c = 46
    · simp [semver.scanIdent, h, List.takeWhile_cons]
    · simp [semver.scanIdent, h, ih, List.takeWhile_cons]; omega

theorem nextIdent_eq (x : GoString) :
    semver.nextIdent x
      = (x.takeWhile (fun c => decide (c ≠ 46)), x.dropWhile (fun c => decide (c ≠ 46))) := by
  simp only [semver.nextIdent, scanIdent_eq, Nat.zero_add, take_length_takeWhile,
    drop_length_takeWhile]

/-- The fields of a dotted string, one `nextIdent` step at a time. -/
theorem splitOn_dot (x : GoString) :
    x.splitOn 46 = (semver.nextIdent x).1 ::
      (match (semver.nextIdent x).2 with
       | [] => []
       | _ :: y => y.splitOn 46) := by
  induction x with
  | nil => simp [nextIdent_eq]
  | cons c cs ih =>
    rw [nextIdent_eq] at ih ⊢
    by_cases h : c = 46
    · subst h
      simp [List.splitOn, List.takeWhile_cons, List.dropWhile_cons]
    · have hs : (c :: cs).splitOn 46 = (cs.splitOn 46).modifyHead (List.cons c) := by
        simp [List.splitOn, h]
      rw [hs, ih]
      simp [List.takeWhile_cons, List.dropWhile_cons, h, List.modifyHead]

theorem splitOn_single {xs : GoString} (h : ∀ c ∈ xs, c ≠ 46) : xs.splitOn 46 = [xs] :=
  List.splitOnP_eq_single _ _ (fun c hc => by simpa using h c hc)

theorem splitOn_first {xs : GoString} (h : ∀ c ∈ xs, c ≠ 46) (ys : GoString) :
    (xs ++ 46 :: ys).splitOn 46 = xs :: ys.splitOn 46 :=
  List.splitOnP_first _ _ (fun c hc => by simpa using h c hc) 46 (by simp) ys

theorem prereleaseLoop_good (rest : GoString) :
    ∀ (cur acc t r : GoString), (∀ c ∈ cur, c ≠ 46) →
      semver.prereleaseLoop rest cur acc = some (t, r) →
      ∃ m, t = acc ++ m ∧ ∀ d ∈ (cur ++ m).splitOn 46, GoodIdent d := by
  induction rest with
  | nil =>
    intro cur acc t r hcur h
    simp only [semver.prereleaseLoop] at h
    split_ifs at h with h1
    simp only [Option.some.injEq, Prod.mk.injEq] at h
    refine ⟨[], by simp [h.1], ?_⟩
    intro d hd
    rw [List.append_nil, splitOn_single hcur] at hd
    simp only [List.mem_singleton] at hd
    subst hd
    exact ⟨fun e => h1 (Or.inl e), hcur, by
      cases hb : semver.isBadNum d with
      | false => rfl
      | true => exact absurd (Or.inr hb) h1⟩
  | cons c cs ih =>
    intro cur acc t r hcur h
    simp only [semver.prereleaseLoop] at h
    split_ifs at h with h1 h2 h3 h4 h5
    · simp only [Option.some.injEq, Prod.mk.injEq] at h
      refine ⟨[], by simp [h.1], ?_⟩
      intro d hd
      rw [List.append_nil, splitOn_single hcur] at hd
      simp only [List.mem_singleton] at hd
      subst hd
      exact ⟨fun e => h2 (Or.inl e), hcur, by
        cases hb : semver.isBadNum d with
        | false => rfl
        | true => exact absurd (Or.inr hb) h2⟩
    · obtain ⟨m, hm, hgood⟩ := ih [] (acc ++ [c]) t r (by simp) h
      refine ⟨c :: m, by simp [hm], ?_⟩
      intro d hd
      subst h4
      rw [splitOn_first hcur] at hd
      rcases List.mem_cons.1 hd with rfl | hd
      · exact ⟨fun e => h5 (Or.inl e), hcur, by
          cases hb : semver.isBadNum d with
          | false => rfl
          | true => exact absurd (Or.inr hb) h5⟩
      · exact hgood d (by simpa using hd)
    · obtain ⟨m, hm, hgood⟩ := ih (cur ++ [c]) (acc ++ [c]) t r
        (by
          intro x hx
          rcases List.mem_append.1 hx with hx | hx
          · exact hcur x hx
          · simp only [List.mem_singleton] at hx; subst hx; exact h4) h
      refine ⟨c :: m, by simp [hm], ?_⟩
      intro d hd
      exact hgood d (by simpa using hd)

theorem parsePrerelease_good {v t r : GoString}
    (h : semver.parsePrerelease v = some (t, r)) : GoodPre t := by
  cases v with
  | nil => simp [semver.parsePrerelease] at h
  | cons c cs =>
    simp only [semver.parsePrerelease] at h
    split_ifs at h with h1
    have hc : c = 45 := by omega
    subst hc
    obtain ⟨m, hm, hgood⟩ := prereleaseLoop_good cs [] [45] t r (by simp) h
    exact Or.inr ⟨m, by simpa using hm, by simpa using hgood⟩

theorem canon_zero : Canon [48] :=
  ⟨by simp, by simp, by simp⟩

theorem parseTail_some {p q : semver.parsed} {v : GoString}
    (h : semver.parseTail p v = some q) :
    q.major = p.major ∧ q.minor = p.minor ∧ q.patch = p.patch ∧
      (q.prerelease = p.prerelease ∨ GoodPre q.prerelease) := by
  unfold semver.parseTail at h
  by_cases h1 : v.head? = some 45
  · simp only [h1, if_true] at h
    cases hp : semver.parsePrerelease v with
    | none => simp [hp] at h
    | some tr =>
      obtain ⟨t, r⟩ := tr
      have hg := parsePrerelease_good hp
      simp only [hp] at h
      by_cases h2 : r.head? = some 43
      · simp only [h2, if_true] at h
        cases hb : semver.parseBuild r with
        | none => simp [hb] at h
        | some tr2 =>
          obtain ⟨t2, r2⟩ := tr2
          simp only [hb] at h
          split_ifs at h
          simp only [Option.some.injEq] at h
          subst h
          exact ⟨rfl, rfl, rfl, Or.inr hg⟩
      · simp only [h2, if_false] at h
        split_ifs at h
        simp only [Option.some.injEq] at h
        subst h
        exact ⟨rfl, rfl, rfl, Or.inr hg⟩
  · simp only [h1, if_false] at h
    by_cases h2 : v.head? = some 43
    · simp only [h2, if_true] at h
      cases hb : semver.parseBuild v with
      | none => simp [hb] at h
      | some tr2 =>
        obtain ⟨t2, r2⟩ := tr2
        simp only [hb] at h
        split_ifs at h
        simp only [Option.some.injEq] at h
        subst h
        exact ⟨rfl, rfl, rfl, Or.inl rfl⟩
    · simp only [h2, if_false] at h
      split_ifs at h
      simp only [Option.some.injEq] at h
      subst h
      exact ⟨rfl, rfl, rfl, Or.inl rfl⟩

/-- The fields of a successfully parsed version are well formed. -/
theorem parse_some {v : GoString} {p : semver.parsed} (h : semver.parse v = some p) :
    Canon p.major ∧ Canon p.minor ∧ Canon p.patch ∧ GoodPre p.prerelease := by
  cases v with
  | nil => simp [semver.parse] at h
  | cons c v1 =>
    simp only [semver.parse] at h
    split_ifs at h with hc
    cases h1 : semver.parseInt v1 with
    | none => simp [h1] at h
    | some mr =>
      obtain ⟨major, r1⟩ := mr
      have hmaj := (parseInt_some h1).2
      simp only [h1] at h
      cases r1 with
      | nil =>
        simp only [Option.some.injEq] at h
        subst h
        exact ⟨hmaj, canon_zero, canon_zero, Or.inl rfl⟩
      | cons d v2 =>
        simp only at h
        split_ifs at h with hd
        cases h2 : semver.parseInt v2 with
        | none => simp [h2] at h
        | some mr2 =>
          obtain ⟨minor, r2⟩ := mr2
          have hmin := (parseInt_some h2).2
          simp only [h2] at h
          cases r2 with
          | nil =>
            simp only [Option.some.injEq] at h
            subst h
            exact ⟨hmaj, hmin, canon_zero, Or.inl rfl⟩
          | cons e v3 =>
            simp only at h
            split_ifs at h with he
            cases h3 : semver.parseInt v3 with
            | none => simp [h3] at h
            | some mr3 =>
              obtain ⟨patch, r3⟩ := mr3
              have hpat := (parseInt_some h3).2
              simp only [h3] at h
              obtain ⟨e1, e2, e3, e4⟩ := parseTail_some h
              simp only at e1 e2 e3 e4
              rw [e1, e2, e3]
              refine ⟨hmaj, hmin, hpat, ?_⟩
              rcases e4 with e4 | e4
              · exact Or.inl e4
              · exact e4

theorem isNum_iff (d : GoString) :
    semver.isNum d = true ↔ ∀ c ∈ d, 48 ≤ c ∧ c ≤ 57 := by
  simp only [semver.isNum, beq_iff_eq]
  exact scanDigits_eq_length_iff d

theorem identOf_num {d : GoString} (h : ∀ c ∈ d, 48 ≤ c ∧ c ≤ 57) :
    SemVer.identOf d = .num (SemVer.decimal d) := by
  have : d.all (fun c => decide (48 ≤ c ∧ c ≤ 57)) = true := by
    rw [List.all_eq_true]; intro c hc; simpa using h c hc
  simp only [SemVer.identOf, this, if_true]

theorem identOf_alnum {d : GoString} (h : ¬ ∀ c ∈ d, 48 ≤ c ∧ c ≤ 57) :
    SemVer.identOf d = .alnum d := by
  have : ¬ d.all (fun c => decide (48 ≤ c ∧ c ≤ 57)) = true := by
    rw [List.all_eq_true]; intro hh; exact h (fun c hc => by simpa using hh c hc)
  rw [SemVer.identOf, if_neg this]

theorem goodIdent_canon {d : GoString} (hg : GoodIdent d) (h : ∀ c ∈ d, 48 ≤ c ∧ c ≤ 57) :
    Canon d := by
  refine ⟨hg.1, h, ?_⟩
  intro hh
  have hb := hg.2.2
  have hl := (scanDigits_eq_length_iff d).2 h
  have hpos : 0 < d.length := List.length_pos.2 hg.1
  simp only [semver.isBadNum, hl, beq_self_eq_true, Bool.true_and, hh, Bool.and_true,
    decide_eq_false_iff_not] at hb
  omega

theorem strLt_irrefl (x : GoString) : strLt x x = false := by
  induction x with
  | nil => rfl
  | cons a x ih => simp [strLt, ih]

theorem strLt_asymm (x y : GoString) (h : strLt x y = true) : strLt y x = false := by
  induction x generalizing y with
  | nil => cases y <;> simp [strLt] at h ⊢
  | cons a x ih =>
    cases y with
    | nil => simp [strLt] at h
    | cons b y =>
      simp only [strLt] at h ⊢
      by_cases h1 : a < b
      · have : ¬ b < a := by omega
        simp [this, h1]
      · by_cases h2 : b < a
        · simp [h1, h2] at h
        · simp only [h1, h2, if_false] at h ⊢
          exact ih y h

theorem strLt_total (x y : GoString) (hne : x ≠ y) (h : strLt x y = false) :
    strLt y x = true := by
  induction x generalizing y with
  | nil =>
    cases y with
    | nil => exact absurd rfl hne
    | cons b y => simp [strLt] at h
  | cons a x ih =>
    cases y with
    | nil => simp [strLt]
    | cons b y =>
      simp only [strLt] at h ⊢
      by_cases h1 : a < b
      · simp [h1] at h
      · by_cases h2 : b < a
        · simp [h2]
        · have hab : a = b := by omega
          subst hab
          simp only [h1, if_false] at h ⊢
          exact ih y (fun e => hne (by rw [e])) h

theorem identLt_irrefl (a : SemVer.Ident) : SemVer.identLt a a = false := by
  cases a with
  | num n => simp [SemVer.identLt]
  | alnum s =>
    have := strLt_irrefl s
    have h2 := strLt_iff s s
    simp only [SemVer.identLt, decide_eq_false_iff_not]
    intro h
    rw [h2.2 h] at this
    exact absurd this (by simp)

/-- The comparison of two different identifiers in `comparePrerelease` is the
precedence of the identifiers they denote. -/
theorem identCmp_spec {dx dy : GoString} (hx : GoodIdent dx) (hy : GoodIdent dy)
    (hne : dx ≠ dy) :
    SemVer.identOf dx ≠ SemVer.identOf dy ∧
    ((identCmp dx dy = -1 ∧ SemVer.identLt (SemVer.identOf dx) (SemVer.identOf dy) = true ∧
        SemVer.identLt (SemVer.identOf dy) (SemVer.identOf dx) = false) ∨
     (identCmp dx dy = 1 ∧ SemVer.identLt (SemVer.identOf dy) (SemVer.identOf dx) = true ∧
        SemVer.identLt (SemVer.identOf dx) (SemVer.identOf dy) = false)) := by
  by_cases nx : ∀ c ∈ dx, 48 ≤ c ∧ c ≤ 57
  · have ix : semver.isNum dx = true := (isNum_iff dx).2 nx
    by_cases ny : ∀ c ∈ dy, 48 ≤ c ∧ c ≤ 57
    · have iy : semver.isNum dy = true := (isNum_iff dy).2 ny
      have cx := goodIdent_canon hx nx
      have cy := goodIdent_canon hy ny
      have hc := compareInt_eq cx cy
      rw [identOf_num nx, identOf_num ny]
      have hid : identCmp dx dy = semver.compareInt dx dy := by
        simp [identCmp, semver.compareInt, ix, iy, hne]
      rw [hid, hc]
      simp only [SemVer.identLt, cmpNat, ne_eq, SemVer.Ident.num.injEq]
      have hdne : SemVer.decimal dx ≠ SemVer.decimal dy := by
        intro e
        rw [e] at hc
        simp only [cmpNat, lt_irrefl, if_false, if_true] at hc
        simp [semver.compareInt, hne] at hc
        split_ifs at hc <;> omega
      refine ⟨hdne, ?_⟩
      by_cases hlt : SemVer.decimal dx < SemVer.decimal dy
      · left
        have : ¬ SemVer.decimal dy < SemVer.decimal dx := by omega
        simp [hlt, this]
      · right
        have : SemVer.decimal dy < SemVer.decimal dx := by omega
        simp [hlt, this, hdne]
    · have iy : semver.isNum dy = false := by
        cases h : semver.isNum dy with
        | false => rfl
        | true => exact absurd ((isNum_iff dy).1 h) ny
      rw [identOf_num nx, identOf_alnum ny]
      refine ⟨by simp, Or.inl ?_⟩
      simp [identCmp, ix, iy, SemVer.identLt]
  · have ix : semver.isNum dx = false := by
      cases h : semver.isNum dx with
      | false => rfl
      | true => exact absurd ((isNum_iff dx).1 h) nx
    by_cases ny : ∀ c ∈ dy, 48 ≤ c ∧ c ≤ 57
    · have iy : semver.isNum dy = true := (isNum_iff dy).2 ny
      rw [identOf_alnum nx, identOf_num ny]
      refine ⟨by simp, Or.inr ?_⟩
      simp [identCmp, ix, iy, SemVer.identLt]
    · have iy : semver.isNum dy = false := by
        cases h : semver.isNum dy with
        | false => rfl
        | true => exact absurd ((isNum_iff dy).1 h) ny
      rw [identOf_alnum nx, identOf_alnum ny]
      refine ⟨by simpa using hne, ?_⟩
      have hid : identCmp dx dy = if strLt dx dy then -1 else 1 := by
        simp [identCmp, ix, iy]
      rw [hid]
      simp only [SemVer.identLt, decide_eq_true_eq, decide_eq_false_iff_not,
        ← strLt_iff]
      by_cases hlt : strLt dx dy = true
      · left
        have := strLt_asymm dx dy hlt
        simp [hlt, this]
      · right
        have hf : strLt dx dy = false := by simpa using hlt
        have := strLt_total dx dy hne hf
        simp [hf, this]

theorem dropWhile_head_not (p : Nat → Bool) (x : GoString) {c : Nat} {r : GoString}
    (h : x.dropWhile p = c :: r) : p c = false := by
  induction x with
  | nil => simp at h
  | cons a x ih =>
    by_cases ha : p a
    · simp only [List.dropWhile_cons, ha, if_true] at h
      exact ih h
    · simp only [List.dropWhile_cons, ha, Bool.false_eq_true, if_false, List.cons.injEq] at h
      rw [← h.1]
      simpa using ha

theorem nextIdent_cases (x : GoString) :
    (semver.nextIdent x = (x, []) ∧ x.splitOn 46 = [x]) ∨
    (∃ d r, semver.nextIdent x = (d, 46 :: r) ∧ x = d ++ 46 :: r ∧
      x.splitOn 46 = d :: r.splitOn 46) := by
  have hs := splitOn_dot x
  have hx := List.takeWhile_append_dropWhile (fun c => decide (c ≠ 46)) x
  rw [nextIdent_eq] at hs ⊢
  cases hd : x.dropWhile (fun c => decide (c ≠ 46)) with
  | nil =>
    rw [hd, List.append_nil] at hx
    left
    rw [hd] at hs
    rw [hx] at hs ⊢
    exact ⟨rfl, hs⟩
  | cons c r =>
    right
    have hc := dropWhile_head_not _ x hd
    simp only [ne_eq, decide_not, Bool.not_eq_eq_eq_not, Bool.not_false,
      decide_eq_true_eq] at hc
    subst hc
    rw [hd] at hs hx
    exact ⟨_, r, rfl, hx.symm, hs⟩

theorem splitOn_ne_nil (x : GoString) : x.splitOn 46 ≠ [] :=
  List.splitOnP_ne_nil _ _

theorem preLt_cons_self (a : SemVer.Ident) (p q : List SemVer.Ident) :
    SemVer.preLt (a :: p) (a :: q) = SemVer.preLt p q := by
  simp [SemVer.preLt, identLt_irrefl]

theorem preLt_cons_ne {a b : SemVer.Ident} (h : a ≠ b) (p q : List SemVer.Ident) :
    SemVer.preLt (a :: p) (b :: q) = SemVer.identLt a b := by
  simp [SemVer.preLt, h]

theorem loop_exit_left (fuel : Nat) (y : GoString) :
    semver.comparePrereleaseLoop fuel [] y = -1 := by
  cases fuel <;> simp [semver.comparePrereleaseLoop]

theorem loop_exit_right (fuel : Nat) (c : Nat) (x : GoString) :
    semver.comparePrereleaseLoop fuel (c :: x) [] = 1 := by
  cases fuel <;> simp [semver.comparePrereleaseLoop]

theorem loop_step (fuel sx sy : Nat) (bx bz : GoString) :
    semver.comparePrereleaseLoop (fuel + 1) (sx :: bx) (sy :: bz)
      = if (semver.nextIdent bx).1 ≠ (semver.nextIdent bz).1 then
          identCmp (semver.nextIdent bx).1 (semver.nextIdent bz).1
        else semver.comparePrereleaseLoop fuel (semver.nextIdent bx).2 (semver.nextIdent bz).2 := by
  simp [semver.comparePrereleaseLoop, identCmp]

/-- The loop of `comparePrerelease` on two different well-formed bodies
computes the precedence of their identifier lists. -/
theorem loop_spec (fuel : Nat) :
    ∀ (sx sy : Nat) (bx bz : GoString), bx.length < fuel →
      (∀ d ∈ bx.splitOn 46, GoodIdent d) → (∀ d ∈ bz.splitOn 46, GoodIdent d) → bx ≠ bz →
      (semver.comparePrereleaseLoop fuel (sx :: bx) (sy :: bz) = -1 ∧
        SemVer.preLt ((bx.splitOn 46).map SemVer.identOf) ((bz.splitOn 46).map SemVer.identOf)
          = true ∧
        SemVer.preLt ((bz.splitOn 46).map SemVer.identOf) ((bx.splitOn 46).map SemVer.identOf)
          = false) ∨
      (semver.comparePrereleaseLoop fuel (sx :: bx) (sy :: bz) = 1 ∧
        SemVer.preLt ((bz.splitOn 46).map SemVer.identOf) ((bx.splitOn 46).map SemVer.identOf)
          = true ∧
        SemVer.preLt ((bx.splitOn 46).map SemVer.identOf) ((bz.splitOn 46).map SemVer.identOf)
          = false) := by
  induction fuel with
  | zero => intro sx sy bx bz hl; omega
  | succ fuel ih =>
    intro sx sy bx bz hl gx gz hne
    rw [loop_step]
    rcases nextIdent_cases bx with ⟨nx, spx⟩ | ⟨dx, rx, nx, ex, spx⟩ <;>
    rcases nextIdent_cases bz with ⟨nz, spz⟩ | ⟨dz, rz, nz, ez, spz⟩ <;>
    rw [nx, nz, spx, spz] <;> simp only [List.map_cons, List.map_nil]
    · -- both bodies are a single identifier
      have g1 : GoodIdent bx := gx bx (by rw [spx]; simp)
      have g2 : GoodIdent bz := gz bz (by rw [spz]; simp)
      obtain ⟨hid, hcmp⟩ := identCmp_spec g1 g2 hne
      simp only [hne, ne_eq, not_false_eq_true, if_true, preLt_cons_ne hid,
        preLt_cons_ne (Ne.symm hid)]
      exact hcmp
    · have g1 : GoodIdent bx := gx bx (by rw [spx]; simp)
      have g2 : GoodIdent dz := gz dz (by rw [spz]; simp)
      by_cases hd : bx = dz
      · subst hd
        have hq : (rz.splitOn 46).map SemVer.identOf ≠ [] := by
          simp [splitOn_ne_nil]
        obtain ⟨q, qs, hq⟩ := List.exists_cons_of_ne_nil hq
        simp only [ne_eq, not_true_eq_false, if_false, loop_exit_left, preLt_cons_self, hq,
          SemVer.preLt]
        simp [identLt_irrefl]
      · obtain ⟨hid, hcmp⟩ := identCmp_spec g1 g2 hd
        simp only [hd, ne_eq, not_false_eq_true, if_true, preLt_cons_ne hid,
          preLt_cons_ne (Ne.symm hid)]
        exact hcmp
    · have g1 : GoodIdent dx := gx dx (by rw [spx]; simp)
      have g2 : GoodIdent bz := gz bz (by rw [spz]; simp)
      by_cases hd : dx = bz
      · subst hd
        have hq : (rx.splitOn 46).map SemVer.identOf ≠ [] := by
          simp [splitOn_ne_nil]
        obtain ⟨q, qs, hq⟩ := List.exists_cons_of_ne_nil hq
        simp only [ne_eq, not_true_eq_false, if_false, loop_exit_right, preLt_cons_self, hq,
          SemVer.preLt]
        simp [identLt_irrefl]
      · obtain ⟨hid, hcmp⟩ := identCmp_spec g1 g2 hd
        simp only [hd, ne_eq, not_false_eq_true, if_true, preLt_cons_ne hid,
          preLt_cons_ne (Ne.symm hid)]
        exact hcmp
    · have g1 : GoodIdent dx := gx dx (by rw [spx]; simp)
      have g2 : GoodIdent dz := gz dz (by rw [spz]; simp)
      by_cases hd : dx = dz
      · subst hd
        have hl2 : rx.length < fuel := by
          have := congrArg List.length ex
          simp only [List.length_append, List.length_cons] at this
          omega
        have hne2 : rx ≠ rz := by
          intro e; apply hne; rw [ex, ez, e]
        have := ih 46 46 rx rz hl2
          (fun d hd => gx d (by rw [spx]; simp [hd]))
          (fun d hd => gz d (by rw [spz]; simp [hd])) hne2
        simp only [ne_eq, not_true_eq_false, if_false, preLt_cons_self]
        exact this
      · obtain ⟨hid, hcmp⟩ := identCmp_spec g1 g2 hd
        simp only [hd, ne_eq, not_false_eq_true, if_true, preLt_cons_ne hid,
          preLt_cons_ne (Ne.symm hid)]
        exact hcmp

theorem preLt_irrefl (p : List SemVer.Ident) : SemVer.preLt p p = false := by
  induction p with
  | nil => rfl
  | cons a p ih => rw [preLt_cons_self, ih]

theorem releaseLt_irrefl (p : List SemVer.Ident) : SemVer.releaseLt p p = false := by
  cases p with
  | nil => rfl
  | cons a p => simp only [SemVer.releaseLt]; exact preLt_irrefl _

theorem preOf_cons_ne_nil (c : Nat) (body : GoString) : SemVer.preOf (c :: body) ≠ [] := by
  simp [SemVer.preOf, splitOn_ne_nil]

/-- The result of `comparePrerelease` on two pre-release strings of parsed
versions is the precedence of the identifier lists they denote. -/
theorem comparePrerelease_spec {x y : GoString} (gx : GoodPre x) (gy : GoodPre y) :
    (semver.comparePrerelease x y = -1 ∧
      SemVer.releaseLt (SemVer.preOf x) (SemVer.preOf y) = true ∧
      SemVer.releaseLt (SemVer.preOf y) (SemVer.preOf x) = false) ∨
    (semver.comparePrerelease x y = 0 ∧
      SemVer.releaseLt (SemVer.preOf x) (SemVer.preOf y) = false ∧
      SemVer.releaseLt (SemVer.preOf y) (SemVer.preOf x) = false) ∨
    (semver.comparePrerelease x y = 1 ∧
      SemVer.releaseLt (SemVer.preOf y) (SemVer.preOf x) = true ∧
      SemVer.releaseLt (SemVer.preOf x) (SemVer.preOf y) = false) := by
  unfold semver.comparePrerelease
  by_cases hxy : x = y
  · subst hxy
    right; left
    simp [releaseLt_irrefl]
  · simp only [hxy, if_false]
    rcases gx with hx | ⟨bx, hx, gbx⟩
    · subst hx
      rcases gy with hy | ⟨bz, hy, gbz⟩
      · exact absurd hy.symm hxy
      · subst hy
        right; right
        obtain ⟨q, qs, hq⟩ := List.exists_cons_of_ne_nil (preOf_cons_ne_nil 45 bz)
        rw [hq]
        simp [SemVer.releaseLt, SemVer.preOf]
    · subst hx
      rcases gy with hy | ⟨bz, hy, gbz⟩
      · subst hy
        left
        obtain ⟨q, qs, hq⟩ := List.exists_cons_of_ne_nil (preOf_cons_ne_nil 45 bx)
        rw [hq]
        simp [SemVer.releaseLt, SemVer.preOf]
      · subst hy
        have hne : bx ≠ bz := fun e => hxy (by rw [e])
        have hl := loop_spec (45 :: bx).length 45 45 bx bz (by simp) gbx gbz hne
        obtain ⟨p, ps, hp⟩ := List.exists_cons_of_ne_nil (preOf_cons_ne_nil 45 bx)
        obtain ⟨q, qs, hq⟩ := List.exists_cons_of_ne_nil (preOf_cons_ne_nil 45 bz)
        have e1 : SemVer.releaseLt (SemVer.preOf (45 :: bx)) (SemVer.preOf (45 :: bz))
            = SemVer.preLt (SemVer.preOf (45 :: bx)) (SemVer.preOf (45 :: bz)) := by
          rw [hp, hq]; rfl
        have e2 : SemVer.releaseLt (SemVer.preOf (45 :: bz)) (SemVer.preOf (45 :: bx))
            = SemVer.preLt (SemVer.preOf (45 :: bz)) (SemVer.preOf (45 :: bx)) := by
          rw [hp, hq]; rfl
        rw [e1, e2]
        simp only [List.cons_ne_self, reduceCtorEq, if_false]
        rcases hl with h | h
        · exact Or.inl h
        · exact Or.inr (Or.inr h)

/-- `Compare` on two valid version strings is the three-way comparison by
semantic-version precedence of the versions they denote. -/
theorem Compare_spec {v w : GoString} {pv pw : semver.parsed}
    (hv : semver.parse v = some pv) (hw : semver.parse w = some pw) :
    (semver.Compare v w = -1 ∧
      SemVer.lt (SemVer.ofParsed pv) (SemVer.ofParsed pw) = true ∧
      SemVer.lt (SemVer.ofParsed pw) (SemVer.ofParsed pv) = false) ∨
    (semver.Compare v w = 0 ∧
      SemVer.lt (SemVer.ofParsed pv) (SemVer.ofParsed pw) = false ∧
      SemVer.lt (SemVer.ofParsed pw) (SemVer.ofParsed pv) = false) ∨
    (semver.Compare v w = 1 ∧
      SemVer.lt (SemVer.ofParsed pw) (SemVer.ofParsed pv) = true ∧
      SemVer.lt (SemVer.ofParsed pv) (SemVer.ofParsed pw) = false) := by
  obtain ⟨a1, a2, a3, a4⟩ := parse_some hv
  obtain ⟨b1, b2, b3, b4⟩ := parse_some hw
  have hp := comparePrerelease_spec a4 b4
  simp only [semver.Compare, hv, hw, compareInt_eq a1 b1, compareInt_eq a2 b2,
    compareInt_eq a3 b3, SemVer.lt, SemVer.ofParsed, cmpNat]
  rcases Nat.lt_trichotomy (SemVer.decimal pv.major) (SemVer.decimal pw.major) with h | h | h
  · left
    have : ¬ SemVer.decimal pw.major < SemVer.decimal pv.major := by omega
    have h' : SemVer.decimal pw.major ≠ SemVer.decimal pv.major := by omega
    simp [h, this, h']
  · rcases Nat.lt_trichotomy (SemVer.decimal pv.minor) (SemVer.decimal pw.minor) with k | k | k
    · left
      have : ¬ SemVer.decimal pw.minor < SemVer.decimal pv.minor := by omega
      have k' : SemVer.decimal pw.minor ≠ SemVer.decimal pv.minor := by omega
      simp [h, k, this, k']
    · rcases Nat.lt_trichotomy (SemVer.decimal pv.patch) (SemVer.decimal pw.patch)
        with l | l | l
      · left
        have : ¬ SemVer.decimal pw.patch < SemVer.decimal pv.patch := by omega
        have l' : SemVer.decimal pw.patch ≠ SemVer.decimal pv.patch := by omega
        simp [h, k, l, this, l']
      · simpa [h, k, l] using hp
      · right; right
        have : ¬ SemVer.decimal pv.patch < SemVer.decimal pw.patch := by omega
        have l' : SemVer.decimal pv.patch ≠ SemVer.decimal pw.patch := by omega
        simp [h, k, l, this, l']
    · right; right
      have : ¬ SemVer.decimal pv.minor < SemVer.decimal pw.minor := by omega
      have k' : SemVer.decimal pv.minor ≠ SemVer.decimal pw.minor := by omega
      simp [h, k, this, k']
  · right; right
    have : ¬ SemVer.decimal pv.major < SemVer.decimal pw.major := by omega
    have h' : SemVer.decimal pv.major ≠ SemVer.decimal pw.major := by omega
    simp [h, this, h']

/-! ## The byte reader -/

theorem Read_eof (r : br) (p : GoString) (h : (r.b.length : Int) ≤ r.i) :
    r.Read p = some ((0, some EOF), p, r) := by
  simp [br.Read, h]

theorem Read_data (r : br) (p : GoString) (h0 : 0 ≤ r.i) (h : r.i < r.b.length) :
    r.Read p = some ((min p.length (r.b.length - r.i.toNat), none),
      (r.b.drop r.i.toNat).take (min p.length (r.b.length - r.i.toNat))
        ++ p.drop (min p.length (r.b.length - r.i.toNat)),
      { r with i := r.i + (min p.length (r.b.length - r.i.toNat) : Nat) }) := by
  have h1 : ¬ ((r.b.length : Int) ≤ r.i) := by omega
  have h2 : 0 ≤ r.i ∧ r.i ≤ (r.b.length : Int) := ⟨h0, by omega⟩
  simp only [br.Read, ge_iff_le, h1, if_false, sliceFrom, h2, and_self, if_true, copy,
    List.length_drop]

theorem Read_data_nat (b p : GoString) (k : Nat) (h : k < b.length) :
    br.Read ⟨b, (k : Int)⟩ p = some ((min p.length (b.length - k), none),
      (b.drop k).take (min p.length (b.length - k)) ++ p.drop (min p.length (b.length - k)),
      ⟨b, ((k + min p.length (b.length - k) : Nat) : Int)⟩) := by
  have := Read_data ⟨b, (k : Int)⟩ p (by simp) (by simpa using h)
  simpa using this

theorem Read_eof_nat (b p : GoString) (k : Nat) (h : b.length ≤ k) :
    br.Read ⟨b, (k : Int)⟩ p = some ((0, some EOF), p, ⟨b, (k : Int)⟩) :=
  Read_eof ⟨b, (k : Int)⟩ p (by simpa using h)

theorem take_take_drop (b : GoString) (k n m : Nat) :
    (b.drop k).take n ++ (b.drop (k + n)).take m = (b.drop k).take (n + m) := by
  rw [List.take_add, List.drop_drop]

/-- A run of `Read` calls with non-empty buffers from offset `k`. -/
theorem readMany_spec (b : GoString) :
    ∀ (bufs : List GoString) (k : Nat), k ≤ b.length → (∀ p ∈ bufs, p ≠ []) →
      ∃ (out : List (Nat × Option GoError × GoString)) (k' : Nat),
        readMany ⟨b, (k : Int)⟩ bufs = some (out, ⟨b, (k' : Int)⟩) ∧
        k ≤ k' ∧ k' ≤ b.length ∧
        delivered out = (b.drop k).take (k' - k) ∧
        ((∃ e ∈ out, e.2.1 ≠ none) → k' = b.length) ∧
        (∀ e ∈ out, (e.2.1 = none ∧ 0 < e.1) ∨ (e.1 = 0 ∧ e.2.1 = some EOF)) ∧
        (b.length < k + bufs.length → ∃ e ∈ out, e.2.1 = some EOF) := by
  intro bufs
  induction bufs with
  | nil =>
    intro k hk _
    refine ⟨[], k, rfl, le_refl _, hk, by simp [delivered], by simp, by simp, ?_⟩
    intro h; simp at h; omega
  | cons p rest ih =>
    intro k hk hne
    have hp : p ≠ [] := hne p (by simp)
    have hrest : ∀ q ∈ rest, q ≠ [] := fun q hq => hne q (by simp [hq])
    by_cases hlt : k < b.length
    · have hpl : 0 < p.length := List.length_pos.2 hp
      obtain ⟨out, k', hrun, h1, h2, h3, h4, h5, h6⟩ :=
        ih (k + min p.length (b.length - k)) (by omega) hrest
      refine ⟨(min p.length (b.length - k), none,
        (b.drop k).take (min p.length (b.length - k))
          ++ p.drop (min p.length (b.length - k))) :: out, k', ?_, by omega, h2, ?_, ?_, ?_, ?_⟩
      · simp only [readMany, Read_data_nat b p k hlt, hrun]
      · simp only [delivered, h3]
        have hlen : ((b.drop k).take (min p.length (b.length - k))).length
            = min p.length (b.length - k) := by
          simp only [List.length_take, List.length_drop]; omega
        rw [List.take_append_of_le_length (by omega), List.take_of_length_le (by omega),
          take_take_drop]
        congr 1
        omega
      · rintro ⟨e, he, hne⟩
        rcases List.mem_cons.1 he with rfl | he
        · exact absurd rfl hne
        · exact h4 ⟨e, he, hne⟩
      · intro e he
        rcases List.mem_cons.1 he with rfl | he
        · left; exact ⟨rfl, by simp only; omega⟩
        · exact h5 e he
      · intro hl
        obtain ⟨e, he, hee⟩ := h6 (by simp only [List.length_cons] at hl; omega)
        exact ⟨e, List.mem_cons_of_mem _ he, hee⟩
    · have hk' : k = b.length := by omega
      obtain ⟨out, k', hrun, h1, h2, h3, h4, h5, h6⟩ := ih k hk hrest
      refine ⟨(0, some EOF, p) :: out, k', ?_, h1, h2, ?_, ?_, ?_, ?_⟩
      · simp only [readMany, Read_eof_nat b p k (by omega), hrun]
      · have : k' - k = 0 := by omega
        simp [delivered, this]
      · intro _; omega
      · intro e he
        rcases List.mem_cons.1 he with rfl | he
        · right; exact ⟨rfl, rfl⟩
        · exact h5 e he
      · intro _
        exact ⟨_, List.mem_cons_self _ _, rfl⟩

/-- Reading a `br` to the end gives its bytes. -/
theorem readAllLoop_spec (b : GoString) (chunk : Nat) (hc : 0 < chunk) :
    ∀ (fuel k : Nat) (data : GoString), k ≤ b.length → b.length - k < fuel →
      readAllLoop chunk fuel ⟨b, (k : Int)⟩ data = some (data ++ b.drop k, none) := by
  intro fuel
  induction fuel with
  | zero => intro k data _ h; omega
  | succ fuel ih =>
    intro k data hk hf
    by_cases hlt : k < b.length
    · have hrep : (List.replicate chunk 0).length = chunk := List.length_replicate _ _
      simp only [readAllLoop, Read_data_nat b _ k hlt, hrep]
      rw [ih _ _ (by omega) (by omega)]
      have hlen : ((b.drop k).take (min chunk (b.length - k))).length
          = min chunk (b.length - k) := by
        simp only [List.length_take, List.length_drop]; omega
      rw [List.take_append_of_le_length (by omega), List.take_of_length_le (by omega)]
      simp only [List.append_assoc, Option.some.injEq, Prod.mk.injEq, and_true,
        List.append_cancel_left_eq]
      rw [← List.drop_drop]
      exact List.take_append_drop _ _
    · have hk' : k = b.length := by omega
      subst hk'
      simp [readAllLoop, Read_eof_nat b _ b.length (le_refl _)]

theorem ReadAll_bytesReader (b : GoString) : ReadAll (bytesReader b) = some (b, none) := by
  have := readAllLoop_spec b 512 (by decide) (b.length + 1) 0 [] (by omega) (by omega)
  simpa [ReadAll, bytesReader] using this

/-! ## Hexadecimal decoding -/

theorem reverseHexTable_gt (c : Nat) : hex.reverseHexTable c > 15 ↔ ¬ isHexDigit c := by
  unfold hex.reverseHexTable isHexDigit
  split_ifs <;> omega

/-- On a string of odd length or with a byte that is no hexadecimal digit the
decoder fails, with `ErrLength` or an `InvalidByteError`. -/
theorem decodeLoop_error : ∀ (s dst : GoString),
    (s.length % 2 = 1 ∨ ∃ c ∈ s, ¬ isHexDigit c) →
    ∃ e, hex.decodeLoop s dst = .error e ∧
      (e = hex.ErrLength ∨ ∃ c ∈ s, e = hex.InvalidByteError c)
  | [], dst, h => by simp at h
  | [p], dst, _ => by
    by_cases hp : hex.reverseHexTable p > 15
    · exact ⟨_, by simp [hex.decodeLoop, hp], Or.inr ⟨p, by simp, rfl⟩⟩
    · exact ⟨_, by simp [hex.decodeLoop, hp], Or.inl rfl⟩
  | p :: q :: rest, dst, h => by
    by_cases ha : hex.reverseHexTable p > 15
    · exact ⟨_, by simp [hex.decodeLoop, ha], Or.inr ⟨p, by simp, rfl⟩⟩
    · by_cases hb : hex.reverseHexTable q > 15
      · exact ⟨_, by simp [hex.decodeLoop, ha, hb], Or.inr ⟨q, by simp, rfl⟩⟩
      · have h' : rest.length % 2 = 1 ∨ ∃ c ∈ rest, ¬ isHexDigit c := by
          rcases h with h | ⟨c, hc, hx⟩
          · left; simp only [List.length_cons] at h; omega
          · rcases List.mem_cons.1 hc with rfl | hc
            · exact absurd ((reverseHexTable_gt c).2 hx) ha
            · rcases List.mem_cons.1 hc with rfl | hc
              · exact absurd ((reverseHexTable_gt c).2 hx) hb
              · exact Or.inr ⟨c, hc, hx⟩
        obtain ⟨e, he, hcase⟩ := decodeLoop_error rest
          (dst ++ [hex.reverseHexTable p * 16 + hex.reverseHexTable q]) h'
        refine ⟨e, by simp [hex.decodeLoop, ha, hb, he], ?_⟩
        rcases hcase with hcase | ⟨c, hc, hcase⟩
        · exact Or.inl hcase
        · exact Or.inr ⟨c, by simp [hc], hcase⟩

/-! ## Every semantic version is the meaning of its string -/

theorem decimal_reverse_digits (ds : List Nat) (h : ∀ d ∈ ds, d < 10) :
    SemVer.decimal ((ds.map (· + 48)).reverse) = Nat.ofDigits 10 ds := by
  induction ds with
  | nil => simp [SemVer.decimal]
  | cons d ds ih =>
    have ih := ih (fun x hx => h x (by simp [hx]))
    simp only [SemVer.decimal] at ih ⊢
    simp only [List.map_cons, List.reverse_cons, List.foldl_append, List.foldl_cons,
      List.foldl_nil, ih, Nat.ofDigits_cons]
    simp only [Nat.add_sub_cancel, Nat.cast_id]
    omega

theorem decimal_renderNat (n : Nat) : SemVer.decimal (SemVer.renderNat n) = n := by
  unfold SemVer.renderNat
  by_cases h : n = 0
  · subst h; simp [SemVer.decimal]
  · rw [if_neg h, decimal_reverse_digits _ (fun d hd => Nat.digits_lt_base (by decide) hd)]
    exact Nat.ofDigits_digits 10 n

theorem canon_renderNat (n : Nat) : Canon (SemVer.renderNat n) := by
  unfold SemVer.renderNat
  by_cases h : n = 0
  · subst h; simpa using canon_zero
  · rw [if_neg h]
    have hne : Nat.digits 10 n ≠ [] := Nat.digits_ne_nil_iff_ne_zero.2 h
    refine ⟨by simpa using hne, ?_, ?_⟩
    · intro c hc
      simp only [List.mem_reverse, List.mem_map] at hc
      obtain ⟨d, hd, rfl⟩ := hc
      have := Nat.digits_lt_base (b := 10) (by decide) hd
      omega
    · intro hh
      exfalso
      have hlast := Nat.getLast_digit_ne_zero 10 h
      rw [List.head?_reverse, List.getLast?_map, List.getLast?_eq_getLast _ hne] at hh
      simp only [Option.map_some', Option.some.injEq] at hh
      omega

theorem scanDigits_append (cs rest : GoString) (i : Nat) (hcs : ∀ c ∈ cs, 48 ≤ c ∧ c ≤ 57)
    (hr : ∀ c, rest.head? = some c → ¬ (48 ≤ c ∧ c ≤ 57)) :
    semver.scanDigits (cs ++ rest) i = i + cs.length := by
  induction cs generalizing i with
  | nil =>
    cases rest with
    | nil => simp [semver.scanDigits]
    | cons c r =>
      have := hr c (by simp)
      simp [semver.scanDigits, this]
  | cons c cs ih =>
    have hc := hcs c (by simp)
    have ih := ih (i + 1) (fun x hx => hcs x (by simp [hx]))
    simp only [List.cons_append, semver.scanDigits, hc, and_self, if_true, List.append_eq, ih,
      List.length_cons]
    omega

theorem parseInt_append {t rest : GoString} (ht : Canon t)
    (hr : ∀ c, rest.head? = some c → ¬ (48 ≤ c ∧ c ≤ 57)) :
    semver.parseInt (t ++ rest) = some (t, rest) := by
  obtain ⟨hne, hdig, hzero⟩ := ht
  cases t with
  | nil => exact absurd rfl hne
  | cons c cs =>
    have hc := hdig c (by simp)
    have hscan := scanDigits_append cs rest 1 (fun x hx => hdig x (by simp [hx])) hr
    have h1 : ¬ (c < 48 ∨ 57 < c) := by omega
    have h2 : ¬ (c = 48 ∧ semver.scanDigits (cs ++ rest) 1 ≠ 1) := by
      rintro ⟨hc48, hne1⟩
      have := hzero (by simp [hc48])
      simp only [List.length_cons] at this
      rw [hscan] at hne1
      omega
    simp only [List.cons_append, semver.parseInt, List.append_eq, h1, h2, if_false]
    rw [hscan, Nat.add_comm]
    simp

theorem isIdentChar_ne {c : Nat} (h : semver.isIdentChar c = true) : c ≠ 43 ∧ c ≠ 46 := by
  simp only [semver.isIdentChar, Bool.or_eq_true, Bool.and_eq_true, decide_eq_true_eq,
    beq_iff_eq] at h
  omega

theorem prereleaseLoop_chars (d : GoString) (hd : ∀ c ∈ d, semver.isIdentChar c = true) :
    ∀ (rest cur acc : GoString),
      semver.prereleaseLoop (d ++ rest) cur acc = semver.prereleaseLoop rest (cur ++ d) (acc ++ d) := by
  induction d with
  | nil => intro rest cur acc; simp
  | cons c d ih =>
    intro rest cur acc
    have hc := hd c (by simp)
    obtain ⟨h1, h2⟩ := isIdentChar_ne hc
    have ih := ih (fun x hx => hd x (by simp [hx])) rest (cur ++ [c]) (acc ++ [c])
    simp only [List.cons_append, semver.prereleaseLoop, h1, h2, hc, if_false, List.append_eq]
    simpa using ih

/-- The loop of `parsePrerelease` accepts dot separated identifiers that are
non-empty, made of identifier bytes and no numbers with a leading zero. -/
theorem prereleaseLoop_idents (ds : List GoString) :
    ∀ (d acc : GoString),
      (∀ x ∈ d :: ds, x ≠ [] ∧ (∀ c ∈ x, semver.isIdentChar c = true) ∧
        semver.isBadNum x = false) →
      semver.prereleaseLoop ([46].intercalate (d :: ds)) [] acc
        = some (acc ++ [46].intercalate (d :: ds), []) := by
  induction ds with
  | nil =>
    intro d acc h
    obtain ⟨h1, h2, h3⟩ := h d (by simp)
    have := prereleaseLoop_chars d h2 [] [] acc
    simp only [List.append_nil, List.nil_append] at this
    have hi : [46].intercalate [d] = d := by simp [List.intercalate]
    rw [hi, this]
    simp [semver.prereleaseLoop, h1, h3]
  | cons e ds ih =>
    intro d acc h
    obtain ⟨h1, h2, h3⟩ := h d (by simp)
    have hi : [46].intercalate (d :: e :: ds) = d ++ 46 :: [46].intercalate (e :: ds) := by
      simp [List.intercalate]
    have := prereleaseLoop_chars d h2 (46 :: [46].intercalate (e :: ds)) [] acc
    simp only [List.nil_append] at this
    rw [hi, this]
    have ih := ih e (acc ++ d ++ [46]) (fun x hx => h x (by simp only [List.mem_cons] at hx ⊢; tauto))
    simp only [semver.prereleaseLoop, h1, h3]
    simpa using ih

theorem isBadNum_of_canon {d : GoString} (h : Canon d) : semver.isBadNum d = false := by
  have hl := (scanDigits_eq_length_iff d).2 h.2.1
  by_cases hh : d.head? = some 48
  · have := h.2.2 hh
    simp [semver.isBadNum, hl, this]
  · simp [semver.isBadNum, hl, hh]

theorem isBadNum_of_not_digits {d : GoString} (h : ¬ ∀ c ∈ d, 48 ≤ c ∧ c ≤ 57) :
    semver.isBadNum d = false := by
  have hl : semver.scanDigits d 0 ≠ d.length := fun e => h ((scanDigits_eq_length_iff d).1 e)
  simp [semver.isBadNum, hl]

theorem renderIdent_good {i : SemVer.Ident} (h : i.WellFormed) :
    SemVer.renderIdent i ≠ [] ∧ (∀ c ∈ SemVer.renderIdent i, semver.isIdentChar c = true) ∧
      semver.isBadNum (SemVer.renderIdent i) = false := by
  cases i with
  | num n =>
    have hc := canon_renderNat n
    refine ⟨hc.1, ?_, isBadNum_of_canon hc⟩
    intro c hcm
    have := hc.2.1 c hcm
    simp only [semver.isIdentChar, Bool.or_eq_true, Bool.and_eq_true, decide_eq_true_eq,
      beq_iff_eq]
    omega
  | alnum s =>
    obtain ⟨h1, h2, h3⟩ := h
    exact ⟨h1, h2, isBadNum_of_not_digits h3⟩

theorem identOf_renderIdent {i : SemVer.Ident} (h : i.WellFormed) :
    SemVer.identOf (SemVer.renderIdent i) = i := by
  cases i with
  | num n =>
    simp only [SemVer.renderIdent]
    rw [identOf_num (canon_renderNat n).2.1, decimal_renderNat]
  | alnum s =>
    obtain ⟨_, _, h3⟩ := h
    simp only [SemVer.renderIdent]
    exact identOf_alnum h3

theorem head_not_digit_46 (r : GoString) :
    ∀ c, (46 :: r).head? = some c → ¬ (48 ≤ c ∧ c ≤ 57) := by
  intro c hc
  simp only [List.head?_cons, Option.some.injEq] at hc
  omega

theorem parseTail_nil (p : semver.parsed) : semver.parseTail p [] = some p := by
  simp [semver.parseTail]

theorem parseTail_pre (p : semver.parsed) (body : GoString)
    (h : semver.prereleaseLoop body [] [45] = some (45 :: body, [])) :
    semver.parseTail p (45 :: body) = some { p with prerelease := 45 :: body } := by
  simp [semver.parseTail, semver.parsePrerelease, h]

/-- The string written for a well-formed version is valid and denotes that
version. -/
theorem ofString_render (a : SemVer.Version) (h : a.WellFormed) :
    SemVer.ofString (SemVer.render a) = some a := by
  obtain ⟨M, m, p, pre⟩ := a
  have hM := canon_renderNat M
  have hm := canon_renderNat m
  have hp := canon_renderNat p
  cases pre with
  | nil =>
    have e1 := @parseInt_append (SemVer.renderNat M)
      (46 :: (SemVer.renderNat m ++ 46 :: (SemVer.renderNat p ++ []))) hM (head_not_digit_46 _)
    have e2 := @parseInt_append (SemVer.renderNat m) (46 :: (SemVer.renderNat p ++ [])) hm
      (head_not_digit_46 _)
    have e3 := @parseInt_append (SemVer.renderNat p) [] hp (by simp)
    simp only [SemVer.ofString, SemVer.render, List.singleton_append, List.append_assoc,
      List.cons_append, List.nil_append, semver.parse, ne_eq, not_true_eq_false, if_false,
      e1, e2, e3, parseTail_nil, Option.map_some', SemVer.ofParsed, decimal_renderNat,
      SemVer.preOf]
  | cons i is =>
    have hgood : ∀ x ∈ SemVer.renderIdent i :: is.map SemVer.renderIdent,
        x ≠ [] ∧ (∀ c ∈ x, semver.isIdentChar c = true) ∧ semver.isBadNum x = false := by
      intro x hx
      rw [← List.map_cons] at hx
      obtain ⟨j, hj, rfl⟩ := List.mem_map.1 hx
      exact renderIdent_good (h j hj)
    have hloop := prereleaseLoop_idents (is.map SemVer.renderIdent) (SemVer.renderIdent i)
      [45] hgood
    have hsplit : ([46].intercalate ((i :: is).map SemVer.renderIdent)).splitOn 46
        = (i :: is).map SemVer.renderIdent := by
      apply List.splitOn_intercalate
      · intro l hl hmem
        have := (hgood l (by simpa using hl)).2.1 46 hmem
        exact absurd this (by decide)
      · simp
    have hid : ((i :: is).map SemVer.renderIdent).map SemVer.identOf = i :: is := by
      rw [List.map_map]
      conv_rhs => rw [← List.map_id (i :: is)]
      apply List.map_congr_left
      intro j hj
      exact identOf_renderIdent (h j hj)
    have e1 := @parseInt_append (SemVer.renderNat M)
      (46 :: (SemVer.renderNat m ++ 46 :: (SemVer.renderNat p ++
        45 :: [46].intercalate ((i :: is).map SemVer.renderIdent)))) hM (head_not_digit_46 _)
    have e2 := @parseInt_append (SemVer.renderNat m) (46 :: (SemVer.renderNat p ++
        45 :: [46].intercalate ((i :: is).map SemVer.renderIdent))) hm (head_not_digit_46 _)
    have e3 := @parseInt_append (SemVer.renderNat p)
      (45 :: [46].intercalate ((i :: is).map SemVer.renderIdent)) hp
      (by intro c hc; simp only [List.head?_cons, Option.some.injEq] at hc; omega)
    have e4 := parseTail_pre
      { major := SemVer.renderNat M, minor := SemVer.renderNat m, patch := SemVer.renderNat p }
      ([46].intercalate ((i :: is).map SemVer.renderIdent)) (by simpa using hloop)
    simp only [SemVer.ofString, SemVer.render, List.singleton_append, List.append_assoc,
      List.cons_append, List.nil_append, semver.parse, ne_eq, not_true_eq_false, if_false,
      e1, e2, e3, e4, Option.map_some', SemVer.ofParsed, decimal_renderNat,
      SemVer.preOf, hsplit, hid]


theorem withV_render (a : SemVer.Version) : withV (SemVer.render a) = SemVer.render a := by
  simp [SemVer.render, withV]

/-! ## Properties of the update flow -/

theorem lt_irrefl_version (a : SemVer.Version) : SemVer.lt a a = false := by
  simp [SemVer.lt, releaseLt_irrefl]

theorem ofString_some {v : GoString} {a : SemVer.Version} (h : SemVer.ofString v = some a) :
    ∃ p, semver.parse v = some p ∧ a = SemVer.ofParsed p := by
  unfold SemVer.ofString at h
  cases hp : semver.parse v with
  | none => simp [hp] at h
  | some p => exact ⟨p, rfl, by simpa [hp] using h.symm⟩

theorem hasNewer_iff {cur lat : GoString} {a b : SemVer.Version}
    (ha : SemVer.ofString (withV cur) = some a) (hb : SemVer.ofString (withV lat) = some b) :
    hasNewer cur lat = true ↔ SemVer.lt a b = true := by
  obtain ⟨pa, hpa, rfl⟩ := ofString_some ha
  obtain ⟨pb, hpb, rfl⟩ := ofString_some hb
  simp only [hasNewer, semver.IsValid, hpa, hpb, Option.isSome_some, Bool.true_and,
    decide_eq_true_eq]
  rcases Compare_spec hpb hpa with ⟨h1, h2, h3⟩ | ⟨h1, h2, h3⟩ | ⟨h1, h2, h3⟩ <;>
    rw [h1] <;> simp [h2, h3]

/-- On the strings written for two well-formed versions the comparison of
`CheckUpdate` is their precedence. -/
theorem hasNewer_render (a b : SemVer.Version) (ha : a.WellFormed) (hb : b.WellFormed) :
    hasNewer (SemVer.render a) (SemVer.render b) = true ↔ SemVer.lt a b = true :=
  hasNewer_iff (by rw [withV_render]; exact ofString_render a ha)
    (by rw [withV_render]; exact ofString_render b hb)

theorem isValid_normalizeV (s : GoString) :
    semver.IsValid (normalizeV s) = semver.IsValid (withV s) := by
  cases s with
  | nil => decide
  | cons c cs =>
    by_cases h : c = 118
    · simp [normalizeV, withV, h]
    · simp [normalizeV, withV, h]

theorem CheckUpdate_ok {env : Env} {url : GoString} {m : manifest}
    (hf : fetchManifest env url = .ok m) :
    CheckUpdate env url =
      { Current := env.Version, Latest := m.Version, URL := m.URL, SHA256 := m.SHA256,
        HasUpdate := hasNewer env.Version m.Version, Error := [] } := by
  simp [CheckUpdate, hf]

theorem CheckUpdate_error {env : Env} {url : GoString} {err : GoError}
    (hf : fetchManifest env url = .error err) :
    CheckUpdate env url =
      { Current := env.Version, Latest := [], URL := [], SHA256 := [],
        HasUpdate := false, Error := err.Error } := by
  simp [CheckUpdate, hf]

/-- C1: when the build version and the manifest version are both valid after
the `v` normalization, `CheckUpdate` sets `HasUpdate` to true exactly when the
manifest version comes strictly after the build version in semantic-version
precedence (major, minor, patch, then the pre-release identifiers); equal
versions give false. -/
theorem C1_hasUpdate_iff_precedence (env : Env) (url : GoString) (m : manifest)
    (a b : SemVer.Version) (hf : fetchManifest env url = .ok m)
    (ha : SemVer.ofString (withV env.Version) = some a)
    (hb : SemVer.ofString (withV m.Version) = some b) :
    ((CheckUpdate env url).HasUpdate = true ↔ SemVer.lt a b = true) ∧
    (a = b → (CheckUpdate env url).HasUpdate = false) := by
  have hiff := hasNewer_iff ha hb
  rw [CheckUpdate_ok hf]
  refine ⟨hiff, ?_⟩
  intro hab
  subst hab
  cases hn : hasNewer env.Version m.Version with
  | false => rfl
  | true =>
    have h := hiff.1 hn
    rw [lt_irrefl_version] at h
    exact absurd h (by simp)

/-- C1, at the versions of the specification: `1.2.3` against `1.2.4` reports
an update, `1.2.4` against `1.2.3` does not, and neither does `1.2.3` against
`v1.2.3+build`, the same version; `1.0.0-beta.2` against `1.0.0-beta.11`
reports one, the numeric identifiers being compared as numbers. -/
theorem C1_witness :
    (CheckUpdate (checkEnv "1.2.3" 200 (sampleManifest "1.2.4")) []).HasUpdate = true ∧
    (CheckUpdate (checkEnv "1.2.4" 200 (sampleManifest "1.2.3")) []).HasUpdate = false ∧
    (CheckUpdate (checkEnv "1.2.3" 200 (sampleManifest "v1.2.3+build")) []).HasUpdate = false ∧
    (CheckUpdate (checkEnv "1.0.0-beta.2" 200 (sampleManifest "1.0.0-beta.11")) []).HasUpdate
      = true := by
  refine ⟨?_, ?_, ?_, ?_⟩
  · exact (C1_hasUpdate_iff_precedence (checkEnv "1.2.3" 200 (sampleManifest "1.2.4")) []
      (sampleManifest "1.2.4") ⟨1, 2, 3, []⟩ ⟨1, 2, 4, []⟩ rfl (by decide)
      (by decide)).1.2 (by decide)
  · have h := (C1_hasUpdate_iff_precedence (checkEnv "1.2.4" 200 (sampleManifest "1.2.3")) []
      (sampleManifest "1.2.3") ⟨1, 2, 4, []⟩ ⟨1, 2, 3, []⟩ rfl (by decide)
      (by decide)).1
    cases hu : (CheckUpdate (checkEnv "1.2.4" 200 (sampleManifest "1.2.3")) []).HasUpdate with
    | false => rfl
    | true => exact absurd (h.1 hu) (by decide)
  · exact (C1_hasUpdate_iff_precedence (checkEnv "1.2.3" 200 (sampleManifest "v1.2.3+build")) []
      (sampleManifest "v1.2.3+build") ⟨1, 2, 3, []⟩ ⟨1, 2, 3, []⟩ rfl (by decide)
      (by decide)).2 rfl
  · exact (C1_hasUpdate_iff_precedence
      (checkEnv "1.0.0-beta.2" 200 (sampleManifest "1.0.0-beta.11")) []
      (sampleManifest "1.0.0-beta.11") ⟨1, 0, 0, [.alnum (lit "beta"), .num 2]⟩
      ⟨1, 0, 0, [.alnum (lit "beta"), .num 11]⟩ rfl (by decide) (by decide)).1.2 (by decide)

/-- C2: when the build version or the manifest version, with `v` put in front
where it is absent, is not a valid semantic version, `CheckUpdate` reports no
update and sets no error. -/
theorem C2_invalid_version_no_update (env : Env) (url : GoString) (m : manifest)
    (hf : fetchManifest env url = .ok m)
    (hbad : semver.IsValid (normalizeV env.Version) = false ∨
      semver.IsValid (normalizeV m.Version) = false) :
    (CheckUpdate env url).HasUpdate = false ∧ (CheckUpdate env url).Error = [] := by
  rw [isValid_normalizeV, isValid_normalizeV] at hbad
  rw [CheckUpdate_ok hf]
  refine ⟨?_, rfl⟩
  simp only [hasNewer]
  rcases hbad with h | h <;> simp [h]

/-- C2, at the versions of the specification: `1.2.3` against `not-a-version`
and `not-a-version` against `1.2.3` both report no update and no error. -/
theorem C2_witness :
    ((CheckUpdate (checkEnv "1.2.3" 200 (sampleManifest "not-a-version")) []).HasUpdate = false ∧
      (CheckUpdate (checkEnv "1.2.3" 200 (sampleManifest "not-a-version")) []).Error = []) ∧
    ((CheckUpdate (checkEnv "not-a-version" 200 (sampleManifest "1.2.3")) []).HasUpdate = false ∧
      (CheckUpdate (checkEnv "not-a-version" 200 (sampleManifest "1.2.3")) []).Error = []) :=
  ⟨C2_invalid_version_no_update (checkEnv "1.2.3" 200 (sampleManifest "not-a-version")) []
      (sampleManifest "not-a-version") rfl (Or.inr (by decide)),
   C2_invalid_version_no_update (checkEnv "not-a-version" 200 (sampleManifest "1.2.3")) []
      (sampleManifest "1.2.3") rfl (Or.inl (by decide))⟩

/-- C3: when the manifest fetch fails, `CheckUpdate` returns the build version,
the message of that error, no update and nothing else; when it succeeds, the
latest version, URL and checksum are the three fields of the manifest, the
current version is the build version and the error is empty. -/
theorem C3_checkUpdate_reports_fetch (env : Env) (url : GoString) :
    match fetchManifest env url with
    | .error err =>
      CheckUpdate env url =
        { Current := env.Version, Latest := [], HasUpdate := false, URL := [], SHA256 := [],
          Error := err.Error }
    | .ok m =>
      (CheckUpdate env url).Latest = m.Version ∧ (CheckUpdate env url).URL = m.URL ∧
      (CheckUpdate env url).SHA256 = m.SHA256 ∧ (CheckUpdate env url).Current = env.Version ∧
      (CheckUpdate env url).Error = [] := by
  cases hf : fetchManifest env url with
  | error err => simp only; exact CheckUpdate_error hf
  | ok m => simp only; rw [CheckUpdate_ok hf]; exact ⟨rfl, rfl, rfl, rfl, rfl⟩

/-- C4: a response with a status below 200 or at least 300 makes
`fetchManifest` return the error `manifest http status not ok`, whatever the
body decodes to, and `CheckUpdate` then reports no update and a non-empty
error; for a status from 200 to 299 the result is decided by the body alone. -/
theorem C4_status_outside_2xx (env : Env) (url : GoString) (resp : Response)
    (hget : env.httpGet url = .ok resp) :
    ((resp.StatusCode < 200 ∨ 300 ≤ resp.StatusCode) →
      fetchManifest env url = .error (.errorString (lit "manifest http status not ok")) ∧
      (CheckUpdate env url).HasUpdate = false ∧ (CheckUpdate env url).Error ≠ []) ∧
    ((200 ≤ resp.StatusCode ∧ resp.StatusCode ≤ 299) →
      fetchManifest env url =
        match env.jsonDecode resp.Body with
        | .error err => .error err
        | .ok m =>
          if m.Version = [] ∨ m.URL = [] ∨ m.SHA256 = [] then
            .error (.errorString (lit "manifest missing fields"))
          else .ok m) := by
  constructor
  · intro hs
    have hf : fetchManifest env url
        = .error (.errorString (lit "manifest http status not ok")) := by
      have hs' : resp.StatusCode < 200 ∨ resp.StatusCode ≥ 300 := hs
      simp only [fetchManifest, hget, hs', if_true]
    refine ⟨hf, ?_⟩
    rw [CheckUpdate_error hf]
    refine ⟨rfl, ?_⟩
    show lit "manifest http status not ok" ≠ []
    decide
  · intro hs
    have hs' : ¬ (resp.StatusCode < 200 ∨ resp.StatusCode ≥ 300) := by omega
    simp only [fetchManifest, hget, hs', if_false]

/-- C4, at status 500 with a body that decodes to a complete manifest, and at
status 200 with the same body. -/
theorem C4_witness :
    (fetchManifest (checkEnv "1.2.3" 500 (sampleManifest "1.2.4")) []
        = .error (.errorString (lit "manifest http status not ok")) ∧
      (CheckUpdate (checkEnv "1.2.3" 500 (sampleManifest "1.2.4")) []).HasUpdate = false ∧
      (CheckUpdate (checkEnv "1.2.3" 500 (sampleManifest "1.2.4")) []).Error ≠ []) ∧
    fetchManifest (checkEnv "1.2.3" 200 (sampleManifest "1.2.4")) []
      = .ok (sampleManifest "1.2.4") :=
  ⟨(C4_status_outside_2xx (checkEnv "1.2.3" 500 (sampleManifest "1.2.4")) []
      { StatusCode := 500, Body := sampleBody } rfl).1 (Or.inr (by decide)),
   ((C4_status_outside_2xx (checkEnv "1.2.3" 200 (sampleManifest "1.2.4")) []
      { StatusCode := 200, Body := sampleBody } rfl).2 ⟨by decide, by decide⟩).trans rfl⟩

/-- C5: for a response with a status from 200 to 299 whose body decodes to `m`,
`fetchManifest` returns a manifest exactly when `Version`, `URL` and `SHA256`
of `m` are all non-empty, and that manifest is `m`; when one of them is empty
it returns the error `manifest missing fields`.  `CheckUpdate` never reports
an update together with an empty latest version, URL or checksum. -/
theorem C5_manifest_fields_required (env : Env) (url : GoString) :
    (∀ (resp : Response) (m : manifest), env.httpGet url = .ok resp →
      200 ≤ resp.StatusCode → resp.StatusCode ≤ 299 → env.jsonDecode resp.Body = .ok m →
        ((∃ m', fetchManifest env url = .ok m') ↔
          (m.Version ≠ [] ∧ m.URL ≠ [] ∧ m.SHA256 ≠ [])) ∧
        ((m.Version ≠ [] ∧ m.URL ≠ [] ∧ m.SHA256 ≠ []) → fetchManifest env url = .ok m) ∧
        ((m.Version = [] ∨ m.URL = [] ∨ m.SHA256 = []) →
          fetchManifest env url = .error (.errorString (lit "manifest missing fields")))) ∧
    ((CheckUpdate env url).HasUpdate = true →
      (CheckUpdate env url).Latest ≠ [] ∧ (CheckUpdate env url).URL ≠ [] ∧
      (CheckUpdate env url).SHA256 ≠ []) := by
  constructor
  · intro resp m hget hlo hhi hdec
    have hs' : ¬ (resp.StatusCode < 200 ∨ resp.StatusCode ≥ 300) := by omega
    have hf : fetchManifest env url =
        if m.Version = [] ∨ m.URL = [] ∨ m.SHA256 = [] then
          .error (.errorString (lit "manifest missing fields"))
        else .ok m := by
      simp only [fetchManifest, hget, hs', if_false, hdec]
    by_cases hc : m.Version = [] ∨ m.URL = [] ∨ m.SHA256 = []
    · rw [hf, if_pos hc]
      refine ⟨?_, ?_, fun _ => rfl⟩
      · constructor
        · rintro ⟨m', hm'⟩; cases hm'
        · rintro ⟨h1, h2, h3⟩
          rcases hc with h | h | h
          · exact absurd h h1
          · exact absurd h h2
          · exact absurd h h3
      · rintro ⟨h1, h2, h3⟩
        rcases hc with h | h | h
        · exact absurd h h1
        · exact absurd h h2
        · exact absurd h h3
    · rw [hf, if_neg hc]
      have hc' : m.Version ≠ [] ∧ m.URL ≠ [] ∧ m.SHA256 ≠ [] :=
        ⟨fun h => hc (Or.inl h), fun h => hc (Or.inr (Or.inl h)),
          fun h => hc (Or.inr (Or.inr h))⟩
      exact ⟨⟨fun _ => hc', fun _ => ⟨m, rfl⟩⟩, fun _ => rfl, fun h => absurd h hc⟩
  · intro hu
    cases hf : fetchManifest env url with
    | error err =>
      rw [CheckUpdate_error hf] at hu
      exact absurd hu (by simp)
    | ok m =>
      rw [CheckUpdate_ok hf]
      simp only [fetchManifest] at hf
      split at hf
      · cases hf
      · split_ifs at hf with h1
        split at hf
        · cases hf
        · split_ifs at hf with h2
          cases hf
          exact ⟨fun h => h2 (Or.inl h), fun h => h2 (Or.inr (Or.inl h)),
            fun h => h2 (Or.inr (Or.inr h))⟩

/-- C5, at a manifest without `sha256` (the field decodes to the empty
string): the fetch fails with `manifest missing fields`. -/
theorem C5_witness :
    fetchManifest (checkEnv "1.2.3" 200 { Version := lit "1.2.4", URL := lit "u" }) []
      = .error (.errorString (lit "manifest missing fields")) :=
  ((C5_manifest_fields_required (checkEnv "1.2.3" 200 { Version := lit "1.2.4", URL := lit "u" })
      []).1 { StatusCode := 200, Body := sampleBody } { Version := lit "1.2.4", URL := lit "u" }
      rfl (by decide) (by decide) rfl).2.2 (Or.inr (Or.inr rfl))

theorem ApplyUpdate_decoded {env : Env} {url s : GoString} {w : World} {resp : Response}
    {sum : GoString} (hget : env.httpGet url = .ok resp) (hbody : resp.Body.err = none)
    (hhex : hex.DecodeString s = .ok sum) :
    ApplyUpdate env url s w =
      match env.selfupdateApply (bytesReader resp.Body.data)
          { Hash := SHA256, Checksum := sum } w.disk with
      | (some err, disk) =>
        match RollbackError err with
        | some _ =>
          ({ OK := false, Error := lit "update failed + rollback failed" },
            { w with disk := disk })
        | none => ({ OK := false, Error := err.Error }, { w with disk := disk })
      | (none, disk) =>
        ({ OK := true, Message := lit "อัปเดตสำเร็จ ✅ กรุณารีสตาร์ทแอป" },
          { disk := disk,
            events := w.events ++ [{ name := lit "update:applied", data := none }] }) := by
  simp only [ApplyUpdate, hget, hbody, hhex]

/-- C6 as stated fails: for the checksum `abc` (odd length) after a successful
download the error is `bad sha256: encoding/hex: odd length hex string`, not
`bad checksum encoding`. -/
theorem C6_counterexample :
    (lit "abc").length % 2 = 1 ∧
    (ApplyUpdate (applyEnv succeedingApply) [] (lit "abc") sampleWorld).1
      = { OK := false, Error := lit "bad sha256: encoding/hex: odd length hex string" } ∧
    (ApplyUpdate (applyEnv succeedingApply) [] (lit "abc") sampleWorld).1
      ≠ { OK := false, Error := lit "bad checksum encoding" } := by
  decide

/-- C6, amended: after a successful download, a checksum string of odd length
or with a byte that is no hexadecimal digit makes `ApplyUpdate` return
`OK = false` with the error `bad sha256: ` followed by the message of the
decoder's error (`ErrLength` or an `InvalidByteError`); the world is left as
it was, so the replace step is not run and no event is sent. -/
theorem C6_bad_hex_rejected (env : Env) (url s : GoString) (w : World) (resp : Response)
    (hget : env.httpGet url = .ok resp) (hbody : resp.Body.err = none)
    (hbad : s.length % 2 = 1 ∨ ∃ c ∈ s, ¬ isHexDigit c) :
    ∃ e, hex.DecodeString s = .error e ∧
      (e = hex.ErrLength ∨ ∃ c ∈ s, e = hex.InvalidByteError c) ∧
      ApplyUpdate env url s w
        = ({ OK := false, Message := [], Error := lit "bad sha256: " ++ e.Error }, w) := by
  obtain ⟨e, he, hcase⟩ := decodeLoop_error s [] hbad
  refine ⟨e, he, hcase, ?_⟩
  have he' : hex.DecodeString s = .error e := he
  simp only [ApplyUpdate, hget, hbody, he']

/-- C6, amended, at the checksum `zz` with a replace step that would succeed:
the result is the decoder's message behind `bad sha256: ` and the world is
unchanged. -/
theorem C6_witness :
    ∃ e, hex.DecodeString (lit "zz") = .error e ∧
      (e = hex.ErrLength ∨ ∃ c ∈ lit "zz", e = hex.InvalidByteError c) ∧
      ApplyUpdate (applyEnv succeedingApply) [] (lit "zz") sampleWorld
        = ({ OK := false, Message := [], Error := lit "bad sha256: " ++ e.Error }, sampleWorld) :=
  C6_bad_hex_rejected (applyEnv succeedingApply) [] (lit "zz") sampleWorld
    { StatusCode := 200, Body := sampleBody } rfl rfl
    (Or.inr ⟨122, by decide, by unfold isHexDigit; omega⟩)

/-- C7 as stated fails: when the replace step and the rollback both fail the
error is `update failed + rollback failed`, not
`update failed and rollback failed`. -/
theorem C7_counterexample :
    (ApplyUpdate (applyEnv rollbackFailedApply) [] (lit "00ff") sampleWorld).1
      = { OK := false, Error := lit "update failed + rollback failed" } ∧
    (ApplyUpdate (applyEnv rollbackFailedApply) [] (lit "00ff") sampleWorld).1
      ≠ { OK := false, Error := lit "update failed and rollback failed" } := by
  decide

/-- C7, amended: when the replace step fails with `err`, `ApplyUpdate` returns
`OK = false` with the error `update failed + rollback failed` if `err` carries
a rollback error, and with the message of `err` itself if it carries none. -/
theorem C7_replace_failure (env : Env) (url s : GoString) (w : World) (resp : Response)
    (sum : GoString) (err : GoError) (d : Disk)
    (hget : env.httpGet url = .ok resp) (hbody : resp.Body.err = none)
    (hhex : hex.DecodeString s = .ok sum)
    (happly : env.selfupdateApply (bytesReader resp.Body.data)
      { Hash := SHA256, Checksum := sum } w.disk = (some err, d)) :
    ((∃ rerr, RollbackError err = some rerr) →
      (ApplyUpdate env url s w).1
        = { OK := false, Message := [], Error := lit "update failed + rollback failed" }) ∧
    (RollbackError err = none →
      (ApplyUpdate env url s w).1 = { OK := false, Message := [], Error := err.Error }) := by
  rw [ApplyUpdate_decoded hget hbody hhex, happly]
  constructor
  · rintro ⟨rerr, hr⟩
    simp only [hr]
  · intro hr
    simp only [hr]

/-- C7, amended, at a replace step whose rollback fails and at one whose
rollback goes through. -/
theorem C7_witness :
    (ApplyUpdate (applyEnv rollbackFailedApply) [] (lit "00ff") sampleWorld).1
      = { OK := false, Message := [], Error := lit "update failed + rollback failed" } ∧
    (ApplyUpdate (applyEnv rolledBackApply) [] (lit "00ff") sampleWorld).1
      = { OK := false, Message := [], Error := lit "rename failed" } :=
  ⟨(C7_replace_failure (applyEnv rollbackFailedApply) [] (lit "00ff") sampleWorld
      { StatusCode := 200, Body := sampleBody } [0, 255]
      (.rollbackErr (.errorString (lit "rename failed")) (.errorString (lit "restore failed")))
      { exe := none } rfl rfl rfl rfl).1 ⟨_, rfl⟩,
   (C7_replace_failure (applyEnv rolledBackApply) [] (lit "00ff") sampleWorld
      { StatusCode := 200, Body := sampleBody } [0, 255]
      (.errorString (lit "rename failed")) sampleWorld.disk rfl rfl rfl rfl).2 rfl⟩

/-- C8 as stated fails: after a successful apply the message is the Thai text
of the source, not `update succeeded; restart required`. -/
theorem C8_counterexample :
    (ApplyUpdate (applyEnv succeedingApply) [] (lit "00ff") sampleWorld).1.OK = true ∧
    (ApplyUpdate (applyEnv succeedingApply) [] (lit "00ff") sampleWorld).1.Message
      = lit "อัปเดตสำเร็จ ✅ กรุณารีสตาร์ทแอป" ∧
    (ApplyUpdate (applyEnv succeedingApply) [] (lit "00ff") sampleWorld).1
      ≠ { OK := true, Message := lit "update succeeded; restart required" } := by
  decide

/-- C8, amended: when the download, the decoding of the checksum and the
replace step all succeed, `ApplyUpdate` sends the event `update:applied` with
`nil` data after the events sent before, and returns `OK = true`, the message
`อัปเดตสำเร็จ ✅ กรุณารีสตาร์ทแอป` and an empty error. -/
theorem C8_success_notifies (env : Env) (url s : GoString) (w : World) (resp : Response)
    (sum : GoString) (d : Disk)
    (hget : env.httpGet url = .ok resp) (hbody : resp.Body.err = none)
    (hhex : hex.DecodeString s = .ok sum)
    (happly : env.selfupdateApply (bytesReader resp.Body.data)
      { Hash := SHA256, Checksum := sum } w.disk = (none, d)) :
    ApplyUpdate env url s w =
      ({ OK := true, Message := lit "อัปเดตสำเร็จ ✅ กรุณารีสตาร์ทแอป", Error := [] },
        { disk := d, events := w.events ++ [{ name := lit "update:applied", data := none }] }) := by
  rw [ApplyUpdate_decoded hget hbody hhex, happly]

/-- C8, amended, at a replace step that installs the payload. -/
theorem C8_witness :
    ApplyUpdate (applyEnv succeedingApply) [] (lit "00ff") sampleWorld =
      ({ OK := true, Message := lit "อัปเดตสำเร็จ ✅ กรุณารีสตาร์ทแอป", Error := [] },
        { disk := { exe := some sampleBody.data },
          events := [{ name := lit "update:applied", data := none }] }) :=
  C8_success_notifies (applyEnv succeedingApply) [] (lit "00ff") sampleWorld
    { StatusCode := 200, Body := sampleBody } [0, 255] { exe := some sampleBody.data }
    rfl rfl rfl rfl

/-- C9: with the replace step of the specification, when the decoded checksum
differs from the digest of the downloaded payload, `ApplyUpdate` returns
`OK = false`, sends no event and leaves the executable on disk as it was. -/
theorem C9_checksum_mismatch (digest : GoString → GoString) (faults : ReplaceFaults)
    (env : Env) (url s : GoString) (w : World) (resp : Response) (sum : GoString)
    (henv : env.selfupdateApply = selfupdateApplySpec digest faults)
    (hget : env.httpGet url = .ok resp) (hbody : resp.Body.err = none)
    (hhex : hex.DecodeString s = .ok sum)
    (hmis : sum ≠ digest resp.Body.data) :
    (ApplyUpdate env url s w).1.OK = false ∧
    (ApplyUpdate env url s w).2.events = w.events ∧
    (ApplyUpdate env url s w).2.disk.exe = w.disk.exe := by
  rw [ApplyUpdate_decoded hget hbody hhex, henv]
  have hmis' : digest resp.Body.data ≠ sum := fun h => hmis h.symm
  simp only [selfupdateApplySpec, ReadAll_bytesReader]
  cases hst : faults.stage with
  | some e =>
    simp only
    cases RollbackError e <;> exact ⟨rfl, rfl, rfl⟩
  | none =>
    simp only [ne_eq, hmis', not_false_eq_true, if_true, RollbackError]
    simp

/-- C9, at the payload of the samples with a checksum that decodes to bytes
other than its digest, with no file-system fault. -/
theorem C9_witness :
    (ApplyUpdate (applyEnv (selfupdateApplySpec sampleDigest {})) [] (lit "00ff")
        sampleWorld).1.OK = false ∧
    (ApplyUpdate (applyEnv (selfupdateApplySpec sampleDigest {})) [] (lit "00ff")
        sampleWorld).2.events = [] ∧
    (ApplyUpdate (applyEnv (selfupdateApplySpec sampleDigest {})) [] (lit "00ff")
        sampleWorld).2.disk.exe = some [9, 9, 9] :=
  C9_checksum_mismatch sampleDigest {} (applyEnv (selfupdateApplySpec sampleDigest {})) []
    (lit "00ff") sampleWorld { StatusCode := 200, Body := sampleBody } [0, 255]
    rfl rfl rfl rfl (by decide)

/-- C10: any run of `Read` calls with non-empty buffers on `bytesReader(b)`
never panics and keeps the offset `k` at most `len(b)`; every call either
delivers at least one byte with a nil error or returns `(0, io.EOF)`; the
bytes delivered before the first `io.EOF` are the first `k` bytes of `b`, and
all of `b` once `io.EOF` was returned, which happens within `len(b) + 1`
calls; the next call returns the next `min(len(p), len(b) - k)` bytes with a
nil error while bytes remain, and `(0, io.EOF)` when none remain. -/
theorem C10_reader_delivers_all (b : GoString) (bufs : List GoString)
    (hne : ∀ p ∈ bufs, p ≠ []) :
    ∃ (out : List (Nat × Option GoError × GoString)) (k : Nat),
      readMany (bytesReader b) bufs = some (out, { b := b, i := (k : Int) }) ∧
      k ≤ b.length ∧
      delivered out = b.take k ∧
      ((∃ e ∈ out, e.2.1 ≠ none) → delivered out = b) ∧
      (∀ e ∈ out, (e.2.1 = none ∧ 0 < e.1) ∨ (e.1 = 0 ∧ e.2.1 = some EOF)) ∧
      (b.length < bufs.length → ∃ e ∈ out, e.2.1 = some EOF) ∧
      (∀ p : GoString, p ≠ [] → k < b.length →
        0 < min p.length (b.length - k) ∧
        br.Read { b := b, i := (k : Int) } p
          = some ((min p.length (b.length - k), none),
              (b.drop k).take (min p.length (b.length - k))
                ++ p.drop (min p.length (b.length - k)),
              { b := b, i := ((k + min p.length (b.length - k) : Nat) : Int) })) ∧
      (∀ p : GoString, k = b.length →
        br.Read { b := b, i := (k : Int) } p
          = some ((0, some EOF), p, { b := b, i := (k : Int) })) := by
  obtain ⟨out, k, hrun, _, hk, hdel, heof, hent, hprog⟩ :=
    readMany_spec b bufs 0 (Nat.zero_le _) hne
  refine ⟨out, k, by simpa [bytesReader] using hrun, hk, by simpa using hdel, ?_, hent,
    by simpa using hprog, ?_, ?_⟩
  · intro h
    have hkl := heof h
    rw [hdel, hkl]
    simp
  · intro p hp hlt
    have hpl : 0 < p.length := List.length_pos.2 hp
    exact ⟨by omega, Read_data_nat b p k hlt⟩
  · intro p hkl
    exact Read_eof_nat b p k (by omega)

/-- C10, at three bytes read through four buffers of two bytes. -/
theorem C10_witness :
    ∃ (out : List (Nat × Option GoError × GoString)) (k : Nat),
      readMany (bytesReader [1, 2, 3]) [[0, 0], [0, 0], [0, 0], [0, 0]]
        = some (out, { b := [1, 2, 3], i := (k : Int) }) ∧
      k ≤ 3 ∧ delivered out = [1, 2, 3] := by
  obtain ⟨out, k, hrun, hk, hdel, heof, _, hprog, _, _⟩ :=
    C10_reader_delivers_all [1, 2, 3] [[0, 0], [0, 0], [0, 0], [0, 0]] (by decide)
  obtain ⟨e, he, hee⟩ := hprog (by decide)
  exact ⟨out, k, hrun, hk, heof ⟨e, he, by rw [hee]; simp⟩⟩

end GoWails
